import Mathlib

/-!
# Verification of the sequential ScatterShuffle library

A shallow embedding of the sequential parts of the `rip_shuffle` crate
(uniform index sampler, bit-rationed random source, Fisher-Yates,
naive and accelerated rough shuffle, stash compaction, reshape sweeps,
multinomial target drawing, and the sequential driver), together with
proofs and refutations of the specification claims.

Modelling conventions:
* machine integers are `Nat` with explicit `% 2^w` where wrap-around matters;
* a random source is an infinite stream `stream : Nat -> Nat` of raw words
  together with a position `pos : Nat`; `rng.gen()` for a `w`-bit type reads
  `stream pos % 2^w` and advances `pos`;
* loops whose termination depends on random data carry an explicit fuel and
  return `Option`; `none` models non-termination within the fuel;
* Rust `assert!` (and panicking slice arithmetic) is modelled by returning
  `none`; `debug_assert!` is compiled out in release builds and is ignored;
* elements are a type parameter `a`, matching the generic element type `T`.
-/

/-! ## Uniform integer sampler (src/uniform_index.rs) -/

/-- `WideMul::wide_multiply` for `w`-bit operands: the widening product of
`x` and `y` as a `(lo, hi)` pair of `w`-bit halves. -/
def wide_multiply (w x y : Nat) : Nat × Nat :=
  ((x * y) % 2 ^ w, (x * y) / 2 ^ w)

/-- The rejection loop inside `gen_index_impl`: while `lo < t`, redraw a
fresh `w`-bit word and recompute the widening product; return `hi` once
`lo >= t`.  Fuel bounds the number of iterations. -/
def gen_index_loop (w ub t : Nat) (stream : Nat → Nat) :
    Nat → Nat → Nat → Nat → Option (Nat × Nat)
  | _, t_lo, t_hi, 0 => if t ≤ t_lo then some (t_hi, 0) else none
  | pos, lo, hi, fuel + 1 =>
    if t ≤ lo then
      some (hi, pos)
    else
      let rand := stream pos % 2 ^ w
      let lh := wide_multiply w rand ub
      gen_index_loop w ub t stream (pos + 1) lh.1 lh.2 fuel

/-- `gen_index_impl` (the body of the `impl_gen_index!` macro) at width `w`:
Lemire's algorithm.  Takes the already-drawn word `initial`; returns the
sampled index together with the stream position after the call. -/
def gen_index_impl (w : Nat) (stream : Nat → Nat) (pos initial ub fuel : Nat) :
    Option (Nat × Nat) :=
  let lh := wide_multiply w initial ub
  if ub ≤ lh.1 then
    some (lh.2, pos)
  else
    let t := ((2 ^ w - ub % 2 ^ w) % 2 ^ w) % ub
    gen_index_loop w ub t stream pos lh.1 lh.2 fuel

/-- `impl_uXX::gen_index` at width `w`: draw one fresh word and run
`gen_index_impl`. -/
def gen_index_w (w : Nat) (stream : Nat → Nat) (pos ub fuel : Nat) :
    Option (Nat × Nat) :=
  gen_index_impl w stream (pos + 1) (stream pos % 2 ^ w) ub fuel

/-- `U32_MAX_UPPER_BOUND = u32::MAX / 16`. -/
def U32_MAX_UPPER_BOUND : Nat := (2 ^ 32 - 1) / 16

/-- The width selected by the public `gen_index` entry point: 32-bit when
`ub <= U32_MAX_UPPER_BOUND`, otherwise 64-bit. -/
def gen_index_width (ub : Nat) : Nat :=
  if ub ≤ U32_MAX_UPPER_BOUND then 32 else 64

/-- The public `gen_index` entry point (for `usize` bounds): dispatch on
`gen_index_width`. -/
def gen_index (stream : Nat → Nat) (pos ub fuel : Nat) : Option (Nat × Nat) :=
  gen_index_w (gen_index_width ub) stream pos ub fuel

theorem wide_multiply_hi_lt (w x y : Nat) (hx : x < 2 ^ w) (hy : 1 ≤ y) :
    (wide_multiply w x y).2 < y := by
  have hw : 0 < 2 ^ w := Nat.pos_pow_of_pos w (by norm_num)
  have hxy : x * y < y * 2 ^ w := by
    have h1 : x * y ≤ (2 ^ w - 1) * y := Nat.mul_le_mul_right y (by omega)
    have h2 : (2 ^ w - 1) * y < 2 ^ w * y :=
      Nat.mul_lt_mul_of_lt_of_le (by omega) (Nat.le_refl y) (by omega)
    calc x * y ≤ (2 ^ w - 1) * y := h1
      _ < 2 ^ w * y := h2
      _ = y * 2 ^ w := Nat.mul_comm _ _
  exact (Nat.div_lt_iff_lt_mul hw).mpr hxy

theorem gen_index_loop_lt (w ub t : Nat) (stream : Nat → Nat) (hub : 1 ≤ ub) :
    ∀ (fuel pos lo hi : Nat), hi < ub →
      ∀ v pos', gen_index_loop w ub t stream pos lo hi fuel = some (v, pos') →
        v < ub := by
  intro fuel
  induction fuel with
  | zero =>
    intro pos lo hi hhi v pos' h
    simp only [gen_index_loop] at h
    split at h
    · simp only [Option.some.injEq, Prod.mk.injEq] at h
      omega
    · exact absurd h (by simp)
  | succ n ih =>
    intro pos lo hi hhi v pos' h
    simp only [gen_index_loop] at h
    split at h
    · simp only [Option.some.injEq, Prod.mk.injEq] at h
      omega
    · exact ih (pos + 1) _ _
        (wide_multiply_hi_lt w _ ub (Nat.mod_lt _ (Nat.pos_pow_of_pos w (by norm_num))) hub)
        v pos' h

/-- C4 helper: any successful `gen_index_impl` result is `< ub`. -/
theorem gen_index_impl_lt (w : Nat) (stream : Nat → Nat)
    (pos initial ub fuel : Nat) (hub : 1 ≤ ub) (hinit : initial < 2 ^ w) :
    ∀ v pos', gen_index_impl w stream pos initial ub fuel = some (v, pos') →
      v < ub := by
  intro v pos' h
  have hhi : (wide_multiply w initial ub).2 < ub :=
    wide_multiply_hi_lt w initial ub hinit hub
  simp only [gen_index_impl] at h
  split at h
  · simp only [Option.some.injEq, Prod.mk.injEq] at h
    omega
  · exact gen_index_loop_lt w ub _ stream hub fuel pos _ _ hhi v pos' h

/-- C4: for every bound `ub >= 1` that fits the word width and every random
stream, a successful `gen_index` run at width `w` returns a value in
`[0, ub)`; moreover Lemire's fast path holds: whenever the widening product
of the fresh word with `ub` has `lo >= ub`, the call returns `hi`
immediately, consuming exactly one word. -/
theorem gen_index_w_in_range (w : Nat) (stream : Nat → Nat)
    (pos ub fuel : Nat) (hub : 1 ≤ ub) :
    (∀ v pos', gen_index_w w stream pos ub fuel = some (v, pos') → v < ub) ∧
    (ub ≤ (wide_multiply w (stream pos % 2 ^ w) ub).1 →
      gen_index_w w stream pos ub fuel =
        some ((wide_multiply w (stream pos % 2 ^ w) ub).2, pos + 1)) := by
  constructor
  · intro v pos' h
    exact gen_index_impl_lt w stream (pos + 1) _ ub fuel hub
      (Nat.mod_lt _ (Nat.pos_pow_of_pos w (by norm_num))) v pos' h
  · intro hfast
    simp only [gen_index_w, gen_index_impl, if_pos hfast]

/-- Witness for `gen_index_w_in_range` at `w = 32`, `ub = 5`, the all-zero
stream: the hypothesis `1 ≤ 5` holds and the sampled value is below 5. -/
theorem gen_index_w_in_range_witness :
    (1 ≤ 5) ∧
      (∀ v pos', gen_index_w 32 (fun _ => 0) 0 5 3 = some (v, pos') → v < 5) :=
  ⟨by decide, (gen_index_w_in_range 32 (fun _ => 0) 0 5 3 (by decide)).1⟩

/-- C9 counterexample: the claim says the 32-bit path is taken exactly when
`ub <= 2^32/16`; but at `ub = 2^32/16 = 268435456` the code takes the
64-bit path, because its threshold is `u32::MAX/16 = 268435455`. -/
theorem gen_index_width_at_pow2_over_16 : gen_index_width (2 ^ 32 / 16) = 64 := by
  decide

/-- C9 (amended): the public `gen_index` dispatches to the 32-bit
implementation exactly when `ub <= u32::MAX/16 = 268435455` (i.e. `ub < 2^28`),
and to the 64-bit implementation for every larger `ub`. -/
theorem gen_index_width_spec (ub : Nat) :
    gen_index_width ub = if ub ≤ 268435455 then 32 else 64 := by
  have : U32_MAX_UPPER_BOUND = 268435455 := by decide
  simp only [gen_index_width, this]

/-! ## Bit-rationed random source (src/random_bits.rs) -/

/-- `RandomBitsSource`: a 64-bit cache of random bits plus the count of
still-valid bits. -/
structure RandomBitsSource where
  random_bits : Nat
  num_available : Nat
  deriving Repr, DecidableEq

/-- `RandomBitsSource::new`. -/
def RandomBitsSource.new : RandomBitsSource := ⟨0, 0⟩

/-- `RandomBitsSource::gen_const_bits::<n>`: serve `n` bits from the cache,
refilling it with a fresh 64-bit word when fewer than `n` bits remain.
Returns the `n`-bit value, the updated source, and the stream position. -/
def gen_const_bits (n : Nat) (stream : Nat → Nat) (rbs : RandomBitsSource)
    (pos : Nat) : Nat × RandomBitsSource × Nat :=
  let bap :=
    if rbs.num_available < n then (stream pos % 2 ^ 64, 64, pos + 1)
    else (rbs.random_bits, rbs.num_available, pos)
  let mask := 2 ^ n - 1
  (bap.1 % (mask + 1), ⟨bap.1 / 2 ^ n, bap.2.1 - n⟩, bap.2.2)

/-! ## Buckets (src/bucketing, with `Bucket` defined as in
src/blocked/block.rs where it is called `Block`) -/

/-- A bucket: a view over a contiguous sub-run of the parent array (its
`data`) plus the count `num_processed` of processed elements at its front.
Adjacency of consecutive buckets is represented structurally: a bucket list
always tiles its parent array, whose contents is the concatenation of the
buckets' `data` fields. -/
structure Bucket (a : Type) where
  data : List a
  num_processed : Nat
  deriving Repr, DecidableEq

/-- `Bucket::len`. -/
def Bucket.len {a : Type} (b : Bucket a) : Nat := b.data.length

/-- `Bucket::num_unprocessed`. -/
def Bucket.num_unprocessed {a : Type} (b : Bucket a) : Nat :=
  b.len - b.num_processed

/-- `Bucket::is_fully_processed`. -/
def Bucket.is_fully_processed {a : Type} (b : Bucket a) : Bool :=
  b.num_processed == b.len

/-- `Bucket::data_processed`: the processed prefix. -/
def Bucket.data_processed {a : Type} (b : Bucket a) : List a :=
  b.data.take b.num_processed

/-- `Bucket.data_unprocessed`: the unprocessed suffix (the bucket's stash). -/
def Bucket.data_unprocessed {a : Type} (b : Bucket a) : List a :=
  b.data.drop b.num_processed

/-- Well-formedness of a bucket (maintained structurally by the Rust type):
the processed count never exceeds the length. -/
def Bucket.wf {a : Type} (b : Bucket a) : Prop := b.num_processed ≤ b.len

/-- `split_slice_into_equally_sized_buckets`: bucket `i` spans
`data[i*n/N .. (i+1)*n/N)`, with `num_processed = 0`. -/
def split_slice_into_equally_sized_buckets {a : Type} (N : Nat)
    (data : List a) : List (Bucket a) :=
  (List.range N).map fun i =>
    ⟨(data.drop (i * data.length / N)).take
      ((i + 1) * data.length / N - i * data.length / N), 0⟩

/-- Total number of unprocessed elements over a bucket list. -/
def total_unprocessed {a : Type} (bs : List (Bucket a)) : Nat :=
  (bs.map Bucket.num_unprocessed).sum

/-- Total length of a bucket list. -/
def total_len {a : Type} (bs : List (Bucket a)) : Nat :=
  (bs.map Bucket.len).sum

/-! ## Multinomial target drawing (`sample_final_bucket_size`,
src/scatter_shuffle/sequential.rs) -/

/-- The binomial sampler of the external `rand_distr` crate is out of scope;
it is modelled as an oracle `binom balls bins` standing for one sample of
`Binomial(balls, 1/bins)` (entropy threading through the external sampler is
omitted).  The `multinomial` closure: with `balls` balls remaining over
`bins` bins, draw `x ~ Binomial(balls, 1/bins)`, emit `x`, subtract, and
move to the next bin. -/
def multinomial (binom : Nat → Nat → Nat) : Nat → Nat → List Nat
  | 0, _ => []
  | bins + 1, balls =>
    let into_this_bin := binom balls (bins + 1)
    into_this_bin :: multinomial binom bins (balls - into_this_bin)

/-- `sample_final_bucket_size`: target length of bucket `i` is its
`num_processed` plus the `i`-th multinomial draw of `num_unprocessed` balls
over `NUM_BUCKETS` bins. -/
def sample_final_bucket_size {a : Type} (binom : Nat → Nat → Nat)
    (num_unprocessed : Nat) (buckets : List (Bucket a)) : List Nat :=
  List.zipWith (fun (b : Bucket a) x => b.num_processed + x)
    buckets (multinomial binom buckets.length num_unprocessed)

theorem multinomial_length (binom : Nat → Nat → Nat) :
    ∀ bins balls, (multinomial binom bins balls).length = bins := by
  intro bins
  induction bins with
  | zero => intro balls; rfl
  | succ n ih => intro balls; simp [multinomial, ih]

theorem multinomial_sum (binom : Nat → Nat → Nat)
    (hle : ∀ n k, binom n k ≤ n) (h1 : ∀ n, binom n 1 = n) :
    ∀ bins balls, 1 ≤ bins → (multinomial binom bins balls).sum = balls := by
  intro bins
  induction bins with
  | zero => omega
  | succ n ih =>
    intro balls _
    by_cases hn : n = 0
    · subst hn
      simp [multinomial, h1]
    · have := ih (balls - binom balls (n + 1)) (by omega)
      have hb := hle balls (n + 1)
      simp only [multinomial, List.sum_cons, this]
      omega

/-! ## Swap primitives and multiset bookkeeping -/

/-- `<[T]>::swap(i, j)` on a list (identity when an index is out of range;
all call sites keep indices in range, where Rust would otherwise panic). -/
def list_swap {a : Type} (l : List a) (i j : Nat) : List a :=
  match l[i]?, l[j]? with
  | some x, some y => (l.set i y).set j x
  | _, _ => l

/-- `core::ptr::swap` between slot `i` of one slice and slot `j` of another. -/
def swap_across {a : Type} (l1 l2 : List a) (i j : Nat) : List a × List a :=
  match l1[i]?, l2[j]? with
  | some x, some y => (l1.set i y, l2.set j x)
  | _, _ => (l1, l2)

theorem coe_set_add {a : Type} :
    ∀ (l : List a) (i : Nat) (x y : a), l[i]? = some y →
      (↑(l.set i x) : Multiset a) + {y} = ↑l + {x} := by
  intro l
  induction l with
  | nil => intro i x y h; simp at h
  | cons b t ih =>
    intro i x y h
    cases i with
    | zero =>
      simp only [List.getElem?_cons_zero, Option.some.injEq] at h
      subst h
      simp only [List.set_cons_zero, ← Multiset.cons_coe]
      rw [← Multiset.singleton_add, ← Multiset.singleton_add]
      abel
    | succ n =>
      simp only [List.getElem?_cons_succ] at h
      simp only [List.set_cons_succ, ← Multiset.cons_coe, Multiset.cons_add]
      rw [ih n x y h]

theorem list_swap_coe {a : Type} (l : List a) (i j : Nat) :
    (↑(list_swap l i j) : Multiset a) = ↑l := by
  unfold list_swap
  cases hi : l[i]? with
  | none => rfl
  | some x =>
    cases hj : l[j]? with
    | none => rfl
    | some y =>
      simp only []
      have hj' : (l.set i y)[j]? = some y := by
        by_cases hij : i = j
        · subst hij
          have : i < l.length := by
            by_contra hc
            rw [List.getElem?_eq_none (by omega)] at hi
            exact absurd hi (by simp)
          simp [List.getElem?_set_self, this]
        · simp [List.getElem?_set_ne hij, hj]
      have e1 := coe_set_add (l.set i y) j x y hj'
      have e2 := coe_set_add l i y x hi
      have : (↑((l.set i y).set j x) : Multiset a) + {y} = ↑l + {y} := by
        rw [e1, e2]
      exact add_right_cancel this

theorem swap_across_coe {a : Type} (l1 l2 : List a) (i j : Nat) :
    (↑(swap_across l1 l2 i j).1 : Multiset a) + ↑(swap_across l1 l2 i j).2 =
      ↑l1 + ↑l2 := by
  unfold swap_across
  cases hi : l1[i]? with
  | none => rfl
  | some x =>
    cases hj : l2[j]? with
    | none => rfl
    | some y =>
      simp only []
      have e1 := coe_set_add l1 i y x hi
      have e2 := coe_set_add l2 j x y hj
      have : (↑(l1.set i y) : Multiset a) + ↑(l2.set j x) + ({x} + {y}) =
          ↑l1 + ↑l2 + ({x} + {y}) := by
        calc (↑(l1.set i y) : Multiset a) + ↑(l2.set j x) + ({x} + {y})
            = (↑(l1.set i y) + {x}) + (↑(l2.set j x) + {y}) := by abel
          _ = (↑l1 + {y}) + (↑l2 + {x}) := by rw [e1, e2]
          _ = ↑l1 + ↑l2 + ({x} + {y}) := by abel
      exact add_right_cancel this

theorem swap_across_lengths {a : Type} (l1 l2 : List a) (i j : Nat) :
    (swap_across l1 l2 i j).1.length = l1.length ∧
      (swap_across l1 l2 i j).2.length = l2.length := by
  unfold swap_across
  cases hi : l1[i]? <;> cases hj : l2[j]? <;> simp

/-! ## Naive rough shuffle (src/rough_shuffle/naive.rs) -/

/-- `Bucket::process_element`: advance `num_processed` and report whether a
next unprocessed element exists (`first_unprocessed().is_some()`). -/
def Bucket.process_element {a : Type} (b : Bucket a) : Bucket a × Bool :=
  (⟨b.data, b.num_processed + 1⟩, decide (b.num_processed + 1 < b.len))

/-- The concatenation of the buckets' data: the parent array they tile. -/
def buckets_data {a : Type} (bs : List (Bucket a)) : List a :=
  (bs.map Bucket.data).flatten

/-- `rough_shuffle_impl`: bucket 0 is the active bucket; repeatedly draw
`logN` bits to choose a partner index into `partners = buckets[1..]`; swap
the active bucket's first unprocessed element with the partner's and advance
the partner, or (when the index equals `partners.length`, i.e.
`NUM_BUCKETS - 1`) advance the active bucket; return the instant the
advanced bucket becomes fully processed.  Fuel bounds the iterations; the
`first_unprocessed().unwrap()` calls are modelled by explicit in-range
checks returning `none` (panic). -/
def rough_shuffle_impl {a : Type} (logN : Nat) (stream : Nat → Nat) :
    Nat → RandomBitsSource → Nat → List (Bucket a) →
      Option (List (Bucket a) × Nat)
  | 0, _, _, _ => none
  | fuel + 1, rbs, pos, buckets =>
    match buckets with
    | [] => none
    | active :: partners =>
      let g := gen_const_bits logN stream rbs pos
      match partners[g.1]? with
      | some partner =>
        if active.num_processed < active.len ∧
            partner.num_processed < partner.len then
          let sw := swap_across active.data partner.data
            active.num_processed partner.num_processed
          let active' : Bucket a := ⟨sw.1, active.num_processed⟩
          let pe := Bucket.process_element ⟨sw.2, partner.num_processed⟩
          let bs' := active' :: partners.set g.1 pe.1
          if pe.2 then rough_shuffle_impl logN stream fuel g.2.1 g.2.2 bs'
          else some (bs', g.2.2)
        else none
      | none =>
        if g.1 = partners.length then
          let pe := Bucket.process_element active
          let bs' := pe.1 :: partners
          if pe.2 then rough_shuffle_impl logN stream fuel g.2.1 g.2.2 bs'
          else some (bs', g.2.2)
        else none

/-- `naive::rough_shuffle`: return immediately when some bucket is already
fully processed, assert `1 << LOG_NUM_BUCKETS == NUM_BUCKETS`, then run the
inner loop with a fresh `RandomBitsSource`. -/
def rough_shuffle {a : Type} (logN : Nat) (stream : Nat → Nat)
    (fuel pos : Nat) (buckets : List (Bucket a)) :
    Option (List (Bucket a) × Nat) :=
  if buckets.any Bucket.is_fully_processed then some (buckets, pos)
  else if 2 ^ logN = buckets.length then
    rough_shuffle_impl logN stream fuel RandomBitsSource.new pos buckets
  else none

theorem sum_map_set {a b : Type} [AddCommMonoid b] (f : a → b) :
    ∀ (l : List a) (i : Nat) (x y : a), l[i]? = some y →
      ((l.set i x).map f).sum + f y = (l.map f).sum + f x := by
  intro l
  induction l with
  | nil => intro i x y h; simp at h
  | cons c t ih =>
    intro i x y h
    cases i with
    | zero =>
      simp only [List.getElem?_cons_zero, Option.some.injEq] at h
      subst h
      simp only [List.set_cons_zero, List.map_cons, List.sum_cons]
      abel
    | succ n =>
      simp only [List.getElem?_cons_succ] at h
      simp only [List.set_cons_succ, List.map_cons, List.sum_cons]
      rw [add_assoc, ih n x y h, ← add_assoc]

theorem coe_join_set {a : Type} :
    ∀ (l : List (Bucket a)) (i : Nat) (p' p : Bucket a), l[i]? = some p →
      (↑(buckets_data (l.set i p')) : Multiset a) + ↑p.data =
        ↑(buckets_data l) + ↑p'.data := by
  intro l
  induction l with
  | nil => intro i p' p h; simp at h
  | cons c t ih =>
    intro i p' p h
    cases i with
    | zero =>
      simp only [List.getElem?_cons_zero, Option.some.injEq] at h
      subst h
      simp only [buckets_data, List.set_cons_zero, List.map_cons,
        List.flatten_cons, ← Multiset.coe_add]
      abel
    | succ n =>
      simp only [List.getElem?_cons_succ] at h
      simp only [buckets_data, List.set_cons_succ, List.map_cons,
        List.flatten_cons, ← Multiset.coe_add] at ih ⊢
      have := ih n p' p h
      calc (↑c.data + ↑(((t.set n p').map Bucket.data).flatten) : Multiset a)
            + ↑p.data
          = ↑c.data + ((↑(((t.set n p').map Bucket.data).flatten)) + ↑p.data) := by
            abel
        _ = ↑c.data + ((↑((t.map Bucket.data).flatten)) + ↑p'.data) := by rw [this]
        _ = ↑c.data + ↑((t.map Bucket.data).flatten) + ↑p'.data := by abel

theorem map_len_set {a : Type} (l : List (Bucket a)) (i : Nat)
    (p' p : Bucket a) (h : l[i]? = some p) (hlen : p'.len = p.len) :
    (l.set i p').map Bucket.len = l.map Bucket.len := by
  induction l generalizing i with
  | nil => simp at h
  | cons c t ih =>
    cases i with
    | zero =>
      simp only [List.getElem?_cons_zero, Option.some.injEq] at h
      subst h
      simp [hlen]
    | succ n =>
      simp only [List.getElem?_cons_succ] at h
      simp [ih n h]

theorem gen_const_bits_lt (n : Nat) (stream : Nat → Nat)
    (rbs : RandomBitsSource) (pos : Nat) :
    (gen_const_bits n stream rbs pos).1 < 2 ^ n := by
  have h : 2 ^ n - 1 + 1 = 2 ^ n := by
    have := Nat.pos_pow_of_pos n (show 0 < 2 by norm_num)
    omega
  simp only [gen_const_bits, h]
  exact Nat.mod_lt _ (Nat.pos_pow_of_pos n (by norm_num))

theorem countP_set_one {a : Type} (p : a → Bool) :
    ∀ (l : List a) (i : Nat) (x y : a), l[i]? = some y →
      (∀ b ∈ l, p b = false) → p x = true →
      (l.set i x).countP p = 1 := by
  intro l
  induction l with
  | nil => intro i x y h; simp at h
  | cons c t ih =>
    intro i x y h hall hx
    cases i with
    | zero =>
      simp only [List.set_cons_zero, List.countP_cons, hx]
      have : t.countP p = 0 := by
        rw [List.countP_eq_zero]
        intro b hb
        simp [hall b (List.mem_cons_of_mem c hb)]
      simp [this]
    | succ n =>
      simp only [List.getElem?_cons_succ] at h
      have hc : p c = false := hall c (List.mem_cons_self c t)
      simp only [List.set_cons_succ, List.countP_cons, hc]
      rw [ih n x y h (fun b hb => hall b (List.mem_cons_of_mem c hb)) hx]
      simp

theorem total_unprocessed_cons {a : Type} (b : Bucket a)
    (bs : List (Bucket a)) :
    total_unprocessed (b :: bs) = b.num_unprocessed + total_unprocessed bs := by
  simp [total_unprocessed]

theorem total_unprocessed_set {a : Type} (l : List (Bucket a)) (i : Nat)
    (x y : Bucket a) (h : l[i]? = some y) :
    total_unprocessed (l.set i x) + y.num_unprocessed =
      total_unprocessed l + x.num_unprocessed :=
  sum_map_set Bucket.num_unprocessed l i x y h

/-- C7 core: with each bucket holding at least one unprocessed element,
the naive rough-shuffle loop returns within `total_unprocessed` iterations,
and in the final state exactly one bucket is fully processed (the loop exits
the instant the first bucket fills, so no later swap can fill another). -/
theorem rough_shuffle_impl_total {a : Type} (logN : Nat)
    (stream : Nat → Nat) :
    ∀ (fuel : Nat) (rbs : RandomBitsSource) (pos : Nat)
      (bs : List (Bucket a)),
      bs ≠ [] → bs.length = 2 ^ logN →
      (∀ b ∈ bs, b.num_processed < b.len) →
      total_unprocessed bs ≤ fuel →
      ∃ bs' pos',
        rough_shuffle_impl logN stream fuel rbs pos bs = some (bs', pos') ∧
        bs'.countP (fun b => b.is_fully_processed) = 1 ∧
        bs'.length = bs.length := by
  intro fuel
  induction fuel with
  | zero =>
    intro rbs pos bs hne _ hunfull hfuel
    cases bs with
    | nil => exact absurd rfl hne
    | cons active partners =>
      have h1 : active.num_processed < active.len :=
        hunfull active (List.mem_cons_self _ _)
      have : 1 ≤ active.num_unprocessed := by
        unfold Bucket.num_unprocessed; omega
      rw [total_unprocessed_cons] at hfuel
      omega
  | succ n ih =>
    intro rbs pos bs hne hlen hunfull hfuel
    cases bs with
    | nil => exact absurd rfl hne
    | cons active partners =>
      have hact : active.num_processed < active.len :=
        hunfull active (List.mem_cons_self _ _)
      have hidx := gen_const_bits_lt logN stream rbs pos
      cases hp : partners[(gen_const_bits logN stream rbs pos).1]? with
      | some partner =>
        have hpart : partner.num_processed < partner.len :=
          hunfull partner (List.mem_cons_of_mem _ (List.getElem?_mem hp))
        have hswlen := swap_across_lengths active.data partner.data
          active.num_processed partner.num_processed
        by_cases hmore : partner.num_processed + 1 < partner.len
        · -- partner not yet full: the loop continues
          have hrec := ih (gen_const_bits logN stream rbs pos).2.1
            (gen_const_bits logN stream rbs pos).2.2
            (⟨(swap_across active.data partner.data active.num_processed
                partner.num_processed).1, active.num_processed⟩ ::
              partners.set (gen_const_bits logN stream rbs pos).1
                ⟨(swap_across active.data partner.data active.num_processed
                  partner.num_processed).2, partner.num_processed + 1⟩)
            (by simp) ?_ ?_ ?_
          · obtain ⟨bs', pos', hcall, hcount, hlen'⟩ := hrec
            refine ⟨bs', pos', ?_, hcount, ?_⟩
            · simp only [rough_shuffle_impl, hp, if_pos (And.intro hact hpart)]
              have hpe : (Bucket.process_element
                  ⟨(swap_across active.data partner.data active.num_processed
                    partner.num_processed).2, partner.num_processed⟩).2 = true := by
                simp only [Bucket.process_element, Bucket.len, hswlen.2]
                exact decide_eq_true hmore
              simp only [Bucket.process_element, Bucket.len] at hpe ⊢
              rw [if_pos hpe]
              exact hcall
            · rw [hlen']
              simp
          · simp only [List.length_cons, List.length_set]
            simpa using hlen
          · intro b hb
            rcases List.mem_cons.mp hb with hb | hb
            · subst hb
              simpa [Bucket.len, hswlen.1] using hact
            · rcases List.mem_or_eq_of_mem_set hb with hb' | hb'
              · exact hunfull b (List.mem_cons_of_mem _ hb')
              · subst hb'
                simpa [Bucket.len, hswlen.2] using hmore
          · -- the swap decreased the total number of unprocessed slots by one
            have hset := total_unprocessed_set partners
              (gen_const_bits logN stream rbs pos).1
              ⟨(swap_across active.data partner.data active.num_processed
                partner.num_processed).2, partner.num_processed + 1⟩
              partner hp
            rw [total_unprocessed_cons] at hfuel ⊢
            have h1 : (⟨(swap_across active.data partner.data
                active.num_processed partner.num_processed).1,
                active.num_processed⟩ : Bucket a).num_unprocessed =
                active.num_unprocessed := by
              simp [Bucket.num_unprocessed, Bucket.len, hswlen.1]
            have h2 : (⟨(swap_across active.data partner.data
                active.num_processed partner.num_processed).2,
                partner.num_processed + 1⟩ : Bucket a).num_unprocessed + 1 =
                partner.num_unprocessed := by
              have hp' : partner.num_processed + 1 < partner.data.length := hmore
              simp only [Bucket.num_unprocessed, Bucket.len, hswlen.2]
              omega
            have hun : 1 ≤ active.num_unprocessed := by
              unfold Bucket.num_unprocessed; omega
            omega
        · -- partner just became full: return immediately
          refine ⟨⟨(swap_across active.data partner.data active.num_processed
              partner.num_processed).1, active.num_processed⟩ ::
            partners.set (gen_const_bits logN stream rbs pos).1
              ⟨(swap_across active.data partner.data active.num_processed
                partner.num_processed).2, partner.num_processed + 1⟩,
            (gen_const_bits logN stream rbs pos).2.2, ?_, ?_, ?_⟩
          · simp only [rough_shuffle_impl, hp, if_pos (And.intro hact hpart)]
            have hpe : (Bucket.process_element
                ⟨(swap_across active.data partner.data active.num_processed
                  partner.num_processed).2, partner.num_processed⟩).2 = false := by
              simp only [Bucket.process_element, Bucket.len, hswlen.2]
              exact decide_eq_false hmore
            simp only [Bucket.process_element, Bucket.len] at hpe ⊢
            rw [if_neg (by simp [hpe])]
          · have hfull : (⟨(swap_across active.data partner.data
                active.num_processed partner.num_processed).2,
                partner.num_processed + 1⟩ : Bucket a).is_fully_processed = true := by
              simp only [Bucket.is_fully_processed, Bucket.len, hswlen.2]
              have : partner.num_processed + 1 = partner.len := by omega
              simp [Bucket.len] at this
              simp [this]
            have hone := countP_set_one (fun b => b.is_fully_processed) partners
              (gen_const_bits logN stream rbs pos).1 _ partner hp ?_ hfull
            · simp only [Bucket.process_element, List.countP_cons, hone]
              have : (⟨(swap_across active.data partner.data
                  active.num_processed partner.num_processed).1,
                  active.num_processed⟩ : Bucket a).is_fully_processed = false := by
                have ha : active.num_processed < active.data.length := hact
                simp only [Bucket.is_fully_processed, Bucket.len, hswlen.1]
                simp only [beq_iff_eq, beq_eq_false_iff_ne, ne_eq]
                omega
              simp [this]
            · intro b hb
              have hbl := hunfull b (List.mem_cons_of_mem _ hb)
              simp only [Bucket.len] at hbl
              simp only [Bucket.is_fully_processed, Bucket.len]
              simp only [beq_iff_eq, beq_eq_false_iff_ne, ne_eq]
              omega
          · simp
      | none =>
        have hnone : partners.length ≤ (gen_const_bits logN stream rbs pos).1 :=
          List.getElem?_eq_none_iff.mp hp
        have hplen : partners.length = 2 ^ logN - 1 := by
          simp only [List.length_cons] at hlen
          omega
        have hexp : 1 ≤ 2 ^ logN := Nat.pos_pow_of_pos logN (by norm_num)
        have heq : (gen_const_bits logN stream rbs pos).1 = partners.length := by
          omega
        by_cases hmore : active.num_processed + 1 < active.len
        · have hrec := ih (gen_const_bits logN stream rbs pos).2.1
            (gen_const_bits logN stream rbs pos).2.2
            (⟨active.data, active.num_processed + 1⟩ :: partners)
            (by simp) (by simpa using hlen) ?_ ?_
          · obtain ⟨bs', pos', hcall, hcount, hlen'⟩ := hrec
            refine ⟨bs', pos', ?_, hcount, by simpa using hlen'⟩
            simp only [rough_shuffle_impl, hp, if_pos heq]
            have hpe : (Bucket.process_element active).2 = true := by
              simp only [Bucket.process_element]
              exact decide_eq_true hmore
            simp only [Bucket.process_element] at hpe ⊢
            rw [if_pos hpe]
            exact hcall
          · intro b hb
            rcases List.mem_cons.mp hb with hb | hb
            · subst hb
              simpa [Bucket.len] using hmore
            · exact hunfull b (List.mem_cons_of_mem _ hb)
          · rw [total_unprocessed_cons] at hfuel ⊢
            have h3 : (⟨active.data, active.num_processed + 1⟩ : Bucket a).num_unprocessed + 1 =
                active.num_unprocessed := by
              have ha : active.num_processed + 1 < active.data.length := hmore
              simp only [Bucket.num_unprocessed, Bucket.len]
              omega
            omega
        · refine ⟨⟨active.data, active.num_processed + 1⟩ :: partners,
            (gen_const_bits logN stream rbs pos).2.2, ?_, ?_, by simp⟩
          · simp only [rough_shuffle_impl, hp, if_pos heq]
            have hpe : (Bucket.process_element active).2 = false := by
              simp only [Bucket.process_element]
              exact decide_eq_false hmore
            simp only [Bucket.process_element] at hpe ⊢
            rw [if_neg (by simp [hpe])]
          · have hfull : (⟨active.data, active.num_processed + 1⟩ : Bucket a).is_fully_processed = true := by
              simp only [Bucket.is_fully_processed, Bucket.len]
              have : active.num_processed + 1 = active.len := by omega
              unfold Bucket.len at this
              simp [this]
            simp only [Bucket.process_element, List.countP_cons, hfull]
            have hzero : partners.countP (fun b => b.is_fully_processed) = 0 := by
              rw [List.countP_eq_zero]
              intro b hb
              have hbl := hunfull b (List.mem_cons_of_mem _ hb)
              simp only [Bucket.len] at hbl
              simp only [Bucket.is_fully_processed, Bucket.len]
              simp only [beq_iff_eq, beq_eq_false_iff_ne, ne_eq]
              omega
            simp [hzero]

/-- C7: for every bucket set in which every bucket has at least one
unprocessed element (and whose size matches the compile-time constant
`2 ^ logN`), the naive rough-shuffle loop terminates for every random
stream within `total_len` iterations (each iteration advances exactly one
bucket's `num_processed` by one), and it stops the instant a bucket becomes
fully processed: in the final state exactly one bucket is fully processed —
in particular at least one is, and no swap was performed after the first
bucket filled (otherwise a second bucket could have filled as well). -/
theorem rough_shuffle_terminates {a : Type} (logN : Nat)
    (stream : Nat → Nat) (pos : Nat) (bs : List (Bucket a))
    (hne : bs ≠ []) (hlen : bs.length = 2 ^ logN)
    (hunproc : ∀ b ∈ bs, 1 ≤ b.num_unprocessed) :
    ∃ bs' pos',
      rough_shuffle logN stream (total_len bs) pos bs = some (bs', pos') ∧
      bs'.countP (fun b => b.is_fully_processed) = 1 := by
  have hunfull : ∀ b ∈ bs, b.num_processed < b.len := by
    intro b hb
    have := hunproc b hb
    unfold Bucket.num_unprocessed at this
    omega
  have hany : bs.any Bucket.is_fully_processed = false := by
    rw [List.any_eq_false]
    intro b hb
    have hbl := hunfull b hb
    simp only [Bucket.len] at hbl
    simp only [Bucket.is_fully_processed, Bucket.len]
    simp only [beq_iff_eq, beq_eq_false_iff_ne, ne_eq]
    omega
  have hfuel : total_unprocessed bs ≤ total_len bs := by
    unfold total_unprocessed total_len
    apply List.sum_le_sum
    intro b _
    unfold Bucket.num_unprocessed
    omega
  obtain ⟨bs', pos', hcall, hcount, _⟩ :=
    rough_shuffle_impl_total logN stream (total_len bs)
      RandomBitsSource.new pos bs hne hlen hunfull hfuel
  refine ⟨bs', pos', ?_, hcount⟩
  unfold rough_shuffle
  rw [hany]
  simp only [Bool.false_eq_true, if_false, ← hlen, if_pos rfl]
  exact hcall

/-- Witness for `rough_shuffle_terminates`: two singleton buckets, the
all-zero stream. -/
theorem rough_shuffle_terminates_witness :
    (([⟨[0], 0⟩, ⟨[1], 0⟩] : List (Bucket Nat)) ≠ [] ∧
      ([⟨[0], 0⟩, ⟨[1], 0⟩] : List (Bucket Nat)).length = 2 ^ 1 ∧
      ∀ b ∈ ([⟨[0], 0⟩, ⟨[1], 0⟩] : List (Bucket Nat)),
        1 ≤ b.num_unprocessed) ∧
    ∃ bs' pos',
      rough_shuffle 1 (fun _ => 0) (total_len [⟨[0], 0⟩, ⟨[1], 0⟩]) 0
        ([⟨[0], 0⟩, ⟨[1], 0⟩] : List (Bucket Nat)) = some (bs', pos') ∧
      bs'.countP (fun b => b.is_fully_processed) = 1 :=
  ⟨⟨by decide, by decide, by decide⟩,
    rough_shuffle_terminates 1 (fun _ => 0) 0 [⟨[0], 0⟩, ⟨[1], 0⟩]
      (by decide) (by decide) (by decide)⟩

theorem buckets_data_cons {a : Type} (b : Bucket a) (bs : List (Bucket a)) :
    buckets_data (b :: bs) = b.data ++ buckets_data bs := by
  simp [buckets_data]

/-- The naive rough-shuffle inner loop permutes the parent array: the
multiset of all elements and the bucket lengths are unchanged. -/
theorem rough_shuffle_impl_perm {a : Type} (logN : Nat) (stream : Nat → Nat) :
    ∀ (fuel : Nat) (rbs : RandomBitsSource) (pos : Nat)
      (bs bs' : List (Bucket a)) (pos' : Nat),
      rough_shuffle_impl logN stream fuel rbs pos bs = some (bs', pos') →
      (↑(buckets_data bs') : Multiset a) = ↑(buckets_data bs) ∧
        bs'.map Bucket.len = bs.map Bucket.len := by
  intro fuel
  induction fuel with
  | zero =>
    intro rbs pos bs bs' pos' h
    simp [rough_shuffle_impl] at h
  | succ n ih =>
    intro rbs pos bs bs' pos' h
    cases bs with
    | nil => simp [rough_shuffle_impl] at h
    | cons active partners =>
      cases hp : partners[(gen_const_bits logN stream rbs pos).1]? with
      | some partner =>
        simp only [rough_shuffle_impl, hp] at h
        split at h
        case isTrue hcond =>
          have hswlen := swap_across_lengths active.data partner.data
            active.num_processed partner.num_processed
          -- the one-step state
          have hstep : ∀ (bs0 : List (Bucket a)), bs0 =
              (⟨(swap_across active.data partner.data active.num_processed
                  partner.num_processed).1, active.num_processed⟩ ::
                partners.set (gen_const_bits logN stream rbs pos).1
                  ⟨(swap_across active.data partner.data active.num_processed
                    partner.num_processed).2, partner.num_processed + 1⟩) →
              (↑(buckets_data bs0) : Multiset a) =
                ↑(buckets_data (active :: partners)) ∧
              bs0.map Bucket.len = (active :: partners).map Bucket.len := by
            intro bs0 hbs0
            subst hbs0
            constructor
            · have hset := coe_join_set partners
                (gen_const_bits logN stream rbs pos).1
                ⟨(swap_across active.data partner.data active.num_processed
                  partner.num_processed).2, partner.num_processed + 1⟩
                partner hp
              have hsw := swap_across_coe active.data partner.data
                active.num_processed partner.num_processed
              rw [buckets_data_cons, buckets_data_cons]
              push_cast [← Multiset.coe_add]
              simp only [← Multiset.coe_add] at hset ⊢
              have : (↑((swap_across active.data partner.data
                  active.num_processed partner.num_processed).1) : Multiset a) +
                  ↑(buckets_data (partners.set
                    (gen_const_bits logN stream rbs pos).1
                    ⟨(swap_across active.data partner.data active.num_processed
                      partner.num_processed).2, partner.num_processed + 1⟩)) +
                  ↑partner.data =
                  ↑active.data + ↑(buckets_data partners) + ↑partner.data := by
                calc (↑((swap_across active.data partner.data
                    active.num_processed partner.num_processed).1) : Multiset a) +
                    ↑(buckets_data (partners.set
                      (gen_const_bits logN stream rbs pos).1
                      ⟨(swap_across active.data partner.data
                        active.num_processed partner.num_processed).2,
                        partner.num_processed + 1⟩)) + ↑partner.data
                    = ↑((swap_across active.data partner.data
                        active.num_processed partner.num_processed).1) +
                      (↑(buckets_data (partners.set
                        (gen_const_bits logN stream rbs pos).1
                        ⟨(swap_across active.data partner.data
                          active.num_processed partner.num_processed).2,
                          partner.num_processed + 1⟩)) + ↑partner.data) := by
                      abel
                  _ = ↑((swap_across active.data partner.data
                        active.num_processed partner.num_processed).1) +
                      (↑(buckets_data partners) +
                        ↑((swap_across active.data partner.data
                          active.num_processed partner.num_processed).2)) := by
                      rw [hset]
                  _ = (↑((swap_across active.data partner.data
                        active.num_processed partner.num_processed).1) +
                      ↑((swap_across active.data partner.data
                        active.num_processed partner.num_processed).2)) +
                      ↑(buckets_data partners) := by abel
                  _ = (↑active.data + ↑partner.data) +
                      ↑(buckets_data partners) := by rw [hsw]
                  _ = ↑active.data + ↑(buckets_data partners) + ↑partner.data := by
                      abel
              exact add_right_cancel this
            · simp only [List.map_cons]
              rw [map_len_set partners _ _ partner hp]
              · congr 1
                simp [Bucket.len, hswlen.1]
              · simp [Bucket.len, hswlen.2]
          split at h
          case isTrue hpe =>
            obtain ⟨hm, hl⟩ := ih _ _ _ bs' pos' h
            obtain ⟨hm0, hl0⟩ := hstep _ rfl
            exact ⟨hm.trans hm0, hl.trans hl0⟩
          case isFalse hpe =>
            simp only [Option.some.injEq, Prod.mk.injEq] at h
            obtain ⟨hbs, _⟩ := h
            obtain ⟨hm0, hl0⟩ := hstep _ hbs.symm
            exact ⟨hm0, hl0⟩
        case isFalse hcond => simp at h
      | none =>
        simp only [rough_shuffle_impl, hp] at h
        split at h
        case isTrue heq =>
          split at h
          case isTrue hpe =>
            obtain ⟨hm, hl⟩ := ih _ _ _ bs' pos' h
            constructor
            · rw [hm]
              simp [buckets_data_cons, Bucket.process_element]
            · rw [hl]
              simp [Bucket.len, Bucket.process_element]
          case isFalse hpe =>
            simp only [Option.some.injEq, Prod.mk.injEq] at h
            obtain ⟨hbs, _⟩ := h
            subst hbs
            constructor
            · simp [buckets_data_cons, Bucket.process_element]
            · simp [Bucket.len, Bucket.process_element]
        case isFalse heq => simp at h

/-- The naive `rough_shuffle` wrapper permutes the parent array. -/
theorem rough_shuffle_perm {a : Type} (logN : Nat) (stream : Nat → Nat)
    (fuel pos : Nat) (bs bs' : List (Bucket a)) (pos' : Nat)
    (h : rough_shuffle logN stream fuel pos bs = some (bs', pos')) :
    (↑(buckets_data bs') : Multiset a) = ↑(buckets_data bs) ∧
      bs'.map Bucket.len = bs.map Bucket.len := by
  unfold rough_shuffle at h
  split at h
  · simp only [Option.some.injEq, Prod.mk.injEq] at h
    obtain ⟨hbs, _⟩ := h
    subst hbs
    exact ⟨rfl, rfl⟩
  · split at h
    · exact rough_shuffle_impl_perm logN stream fuel _ pos bs bs' pos' h
    · simp at h

/-! ## Fisher-Yates, naive form (src/fisher_yates/naive.rs).
With the `prefetch`/`unsafe_algos` features disabled, the crate's
`fisher_yates` entry point is exactly the naive loop. -/

/-- The loop of `fisher_yates`, counting `i` down: at index `i` draw
`j ∈ [0, i+1)` via `gen_index` and swap `data[i]` with `data[j]`.
The parameter is the current index; the loop stops before index 0. -/
def fisher_yates_go {a : Type} (stream : Nat → Nat) (gfuel : Nat) :
    Nat → List a → Nat → Option (List a × Nat)
  | 0, data, pos => some (data, pos)
  | i + 1, data, pos =>
    match gen_index stream pos (i + 2) gfuel with
    | none => none
    | some r => fisher_yates_go stream gfuel i (list_swap data (i + 1) r.1) r.2

/-- `fisher_yates`: for `i` from `len-1` down to `1`, swap `data[i]` with a
uniformly drawn `data[j]`, `j ∈ [0, i+1)`. -/
def fisher_yates {a : Type} (stream : Nat → Nat) (pos : Nat) (data : List a)
    (gfuel : Nat) : Option (List a × Nat) :=
  fisher_yates_go stream gfuel (data.length - 1) data pos

theorem list_swap_length {a : Type} (l : List a) (i j : Nat) :
    (list_swap l i j).length = l.length := by
  unfold list_swap
  cases hi : l[i]? <;> cases hj : l[j]? <;> simp

theorem fisher_yates_go_perm {a : Type} (stream : Nat → Nat) (gfuel : Nat) :
    ∀ (i : Nat) (data out : List a) (pos pos' : Nat),
      fisher_yates_go stream gfuel i data pos = some (out, pos') →
      (↑out : Multiset a) = ↑data := by
  intro i
  induction i with
  | zero =>
    intro data out pos pos' h
    simp only [fisher_yates_go, Option.some.injEq, Prod.mk.injEq] at h
    rw [h.1]
  | succ n ih =>
    intro data out pos pos' h
    simp only [fisher_yates_go] at h
    cases hg : gen_index stream pos (n + 2) gfuel with
    | none => rw [hg] at h; simp at h
    | some r =>
      rw [hg] at h
      have := ih _ out _ pos' h
      rw [this, list_swap_coe]

/-- `fisher_yates` permutes its input (multiset preservation). -/
theorem fisher_yates_perm {a : Type} (stream : Nat → Nat) (pos : Nat)
    (data out : List a) (gfuel pos' : Nat)
    (h : fisher_yates stream pos data gfuel = some (out, pos')) :
    (↑out : Multiset a) = ↑data :=
  fisher_yates_go_perm stream gfuel _ data out pos pos' h

/-! ## Noncontiguous Fisher-Yates (src/fisher_yates/noncontiguous.rs) -/

/-- The swap `core::ptr::swap(i_ptr, j_ptr)` between slot `i` of range `ir`
and slot `j` of range `jr` (possibly the same range). -/
def ncfy_swap {a : Type} (ranges : List (List a)) (ir i jr j : Nat) :
    List (List a) :=
  if ir = jr then
    match ranges[ir]? with
    | some ri => ranges.set ir (list_swap ri i j)
    | none => ranges
  else
    match ranges[ir]?, ranges[jr]? with
    | some ri, some rj =>
      let sw := swap_across ri rj i j
      (ranges.set ir sw.1).set jr sw.2
    | _, _ => ranges

/-- The rejection loop of `noncontiguous_fisher_yates` picking the swap
partner for position `(i_range, i)`: maintain `max_len` (a prefix maximum
of range lengths) and the tolerance counter; draw a range index
`j_range ∈ [0, i_range+1)` and an offset `j ∈ [0, ub+1)` and accept when
`j < ranges[j_range].len()`.  Returns `((j_range, j), max_len, tol, pos)`. -/
def ncfy_pick {a : Type} (stream : Nat → Nat) (ranges : List (List a))
    (i_range i : Nat) :
    Nat → Nat → Nat → Nat → Nat → Option ((Nat × Nat) × Nat × Nat × Nat)
  | _, _, _, _, 0 => none
  | maxLen, tol, pos, gfuel, fuel + 1 =>
    let umt : Nat × Nat × Nat :=
      if i_range = 0 then (i, maxLen, tol)
      else if tol = 0 then
        let m := ((ranges.take (i_range + 1)).map List.length).foldr max 0
        (m, m, (i_range + 1) * m / 2)
      else (maxLen, maxLen, tol - 1)
    match gen_index stream pos (i_range + 1) gfuel with
    | none => none
    | some jr =>
      match gen_index stream jr.2 (umt.1 + 1) gfuel with
      | none => none
      | some j =>
        if j.1 < (ranges.getD jr.1 []).length then
          some ((jr.1, j.1), umt.2.1, umt.2.2, j.2)
        else
          ncfy_pick stream ranges i_range i umt.2.1 umt.2.2 j.2 gfuel fuel

/-- The inner loop of `noncontiguous_fisher_yates` over one range:
`count` iterations remain; the current position is
`i = i_start + count - 1` with `i_start = (if i_range = 0 then 1 else 0)`. -/
def ncfy_inner {a : Type} (stream : Nat → Nat) (i_range : Nat)
    (gfuel rfuel : Nat) :
    Nat → List (List a) → Nat → Nat → Nat →
      Option (List (List a) × Nat × Nat × Nat)
  | 0, ranges, maxLen, tol, pos => some (ranges, maxLen, tol, pos)
  | count + 1, ranges, maxLen, tol, pos =>
    let i := (if i_range = 0 then 1 else 0) + count
    match ncfy_pick stream ranges i_range i maxLen tol pos gfuel rfuel with
    | none => none
    | some pick =>
      ncfy_inner stream i_range gfuel rfuel count
        (ncfy_swap ranges i_range i pick.1.1 pick.1.2)
        pick.2.1 pick.2.2.1 pick.2.2.2

/-- The outer loop of `noncontiguous_fisher_yates` over the ranges, from the
last range down to range 0 (whose loop stops at index 1). -/
def ncfy_outer {a : Type} (stream : Nat → Nat) (gfuel rfuel : Nat) :
    Nat → List (List a) → Nat → Nat → Nat →
      Option (List (List a) × Nat × Nat × Nat)
  | 0, ranges, maxLen, tol, pos => some (ranges, maxLen, tol, pos)
  | ir1 + 1, ranges, maxLen, tol, pos =>
    let i_start := if ir1 = 0 then 1 else 0
    let count := (ranges.getD ir1 []).length - i_start
    match ncfy_inner stream ir1 gfuel rfuel count ranges maxLen tol pos with
    | none => none
    | some res =>
      ncfy_outer stream gfuel rfuel ir1 res.1 res.2.1 res.2.2.1 res.2.2.2

/-- `noncontiguous_fisher_yates`: walk the concatenation of the ranges in
reverse, picking each swap partner by rejection. -/
def noncontiguous_fisher_yates {a : Type} (stream : Nat → Nat) (pos : Nat)
    (ranges : List (List a)) (gfuel rfuel : Nat) :
    Option (List (List a) × Nat) :=
  if ranges.isEmpty then some (ranges, pos)
  else
    let maxLen := (ranges.map List.length).foldr max 0
    let tol := ranges.length * maxLen / 2
    match ncfy_outer stream gfuel rfuel ranges.length ranges maxLen tol pos with
    | none => none
    | some res => some (res.1, res.2.2.2)

theorem coe_flatten_set {a : Type} :
    ∀ (l : List (List a)) (i : Nat) (x y : List a), l[i]? = some y →
      (↑((l.set i x).flatten) : Multiset a) + ↑y = ↑l.flatten + ↑x := by
  intro l
  induction l with
  | nil => intro i x y h; simp at h
  | cons c t ih =>
    intro i x y h
    cases i with
    | zero =>
      simp only [List.getElem?_cons_zero, Option.some.injEq] at h
      subst h
      simp only [List.set_cons_zero, List.flatten_cons, ← Multiset.coe_add]
      abel
    | succ n =>
      simp only [List.getElem?_cons_succ] at h
      simp only [List.set_cons_succ, List.flatten_cons, ← Multiset.coe_add]
      have := ih n x y h
      calc (↑c + ↑((t.set n x).flatten) : Multiset a) + ↑y
          = ↑c + (↑((t.set n x).flatten) + ↑y) := by abel
        _ = ↑c + (↑t.flatten + ↑x) := by rw [this]
        _ = ↑c + ↑t.flatten + ↑x := by abel

theorem map_length_set {a : Type} (l : List (List a)) (i : Nat)
    (x y : List a) (h : l[i]? = some y) (hlen : x.length = y.length) :
    (l.set i x).map List.length = l.map List.length := by
  induction l generalizing i with
  | nil => simp at h
  | cons c t ih =>
    cases i with
    | zero =>
      simp only [List.getElem?_cons_zero, Option.some.injEq] at h
      subst h
      simp [hlen]
    | succ n =>
      simp only [List.getElem?_cons_succ] at h
      simp [ih n h]

theorem ncfy_swap_perm {a : Type} (ranges : List (List a)) (ir i jr j : Nat) :
    (↑((ncfy_swap ranges ir i jr j).flatten) : Multiset a) = ↑ranges.flatten ∧
      (ncfy_swap ranges ir i jr j).map List.length = ranges.map List.length := by
  unfold ncfy_swap
  split
  case isTrue hij =>
    subst hij
    cases hr : ranges[ir]? with
    | none => exact ⟨rfl, rfl⟩
    | some ri =>
      simp only []
      constructor
      · have := coe_flatten_set ranges ir (list_swap ri i j) ri hr
        rw [list_swap_coe] at this
        exact add_right_cancel this
      · exact map_length_set ranges ir _ ri hr (list_swap_length ri i j)
  case isFalse hij =>
    cases hri : ranges[ir]? with
    | none => exact ⟨rfl, rfl⟩
    | some ri =>
      cases hrj : ranges[jr]? with
      | none => exact ⟨rfl, rfl⟩
      | some rj =>
        simp only []
        have hsw := swap_across_coe ri rj i j
        have hswl := swap_across_lengths ri rj i j
        have hrj' : (ranges.set ir (swap_across ri rj i j).1)[jr]? = some rj := by
          rw [List.getElem?_set_ne hij]
          exact hrj
        constructor
        · have e1 := coe_flatten_set (ranges.set ir (swap_across ri rj i j).1)
            jr (swap_across ri rj i j).2 rj hrj'
          have e2 := coe_flatten_set ranges ir (swap_across ri rj i j).1 ri hri
          have : (↑(((ranges.set ir (swap_across ri rj i j).1).set jr
              (swap_across ri rj i j).2).flatten) : Multiset a) + (↑rj + ↑ri) =
              ↑ranges.flatten + (↑rj + ↑ri) := by
            calc (↑(((ranges.set ir (swap_across ri rj i j).1).set jr
                (swap_across ri rj i j).2).flatten) : Multiset a) + (↑rj + ↑ri)
                = (↑(((ranges.set ir (swap_across ri rj i j).1).set jr
                    (swap_across ri rj i j).2).flatten) + ↑rj) + ↑ri := by abel
              _ = (↑((ranges.set ir (swap_across ri rj i j).1).flatten) +
                    ↑(swap_across ri rj i j).2) + ↑ri := by rw [e1]
              _ = (↑((ranges.set ir (swap_across ri rj i j).1).flatten) + ↑ri) +
                    ↑(swap_across ri rj i j).2 := by abel
              _ = (↑ranges.flatten + ↑(swap_across ri rj i j).1) +
                    ↑(swap_across ri rj i j).2 := by rw [e2]
              _ = ↑ranges.flatten +
                    (↑(swap_across ri rj i j).1 + ↑(swap_across ri rj i j).2) := by
                  abel
              _ = ↑ranges.flatten + (↑ri + ↑rj) := by rw [hsw]
              _ = ↑ranges.flatten + (↑rj + ↑ri) := by abel
          exact add_right_cancel this
        · rw [map_length_set _ jr _ rj hrj' hswl.2,
            map_length_set _ ir _ ri hri hswl.1]

theorem ncfy_inner_perm {a : Type} (stream : Nat → Nat) (i_range : Nat)
    (gfuel rfuel : Nat) :
    ∀ (count : Nat) (ranges : List (List a)) (maxLen tol pos : Nat) res,
      ncfy_inner stream i_range gfuel rfuel count ranges maxLen tol pos =
        some res →
      (↑(res.1.flatten) : Multiset a) = ↑ranges.flatten ∧
        res.1.map List.length = ranges.map List.length := by
  intro count
  induction count with
  | zero =>
    intro ranges maxLen tol pos res h
    simp only [ncfy_inner, Option.some.injEq] at h
    rw [← h]
    exact ⟨rfl, rfl⟩
  | succ n ih =>
    intro ranges maxLen tol pos res h
    simp only [ncfy_inner] at h
    cases hpick : ncfy_pick stream ranges i_range
        ((if i_range = 0 then 1 else 0) + n) maxLen tol pos gfuel rfuel with
    | none => rw [hpick] at h; simp at h
    | some pick =>
      rw [hpick] at h
      obtain ⟨hm, hl⟩ := ih _ _ _ _ res h
      have hsw := ncfy_swap_perm ranges i_range
        ((if i_range = 0 then 1 else 0) + n) pick.1.1 pick.1.2
      exact ⟨hm.trans hsw.1, hl.trans hsw.2⟩

theorem ncfy_outer_perm {a : Type} (stream : Nat → Nat) (gfuel rfuel : Nat) :
    ∀ (k : Nat) (ranges : List (List a)) (maxLen tol pos : Nat) res,
      ncfy_outer stream gfuel rfuel k ranges maxLen tol pos = some res →
      (↑(res.1.flatten) : Multiset a) = ↑ranges.flatten ∧
        res.1.map List.length = ranges.map List.length := by
  intro k
  induction k with
  | zero =>
    intro ranges maxLen tol pos res h
    simp only [ncfy_outer, Option.some.injEq] at h
    rw [← h]
    exact ⟨rfl, rfl⟩
  | succ n ih =>
    intro ranges maxLen tol pos res h
    simp only [ncfy_outer] at h
    cases hin : ncfy_inner stream n gfuel rfuel
        ((ranges.getD n []).length - if n = 0 then 1 else 0) ranges maxLen
        tol pos with
    | none => rw [hin] at h; simp at h
    | some r =>
      rw [hin] at h
      obtain ⟨hm, hl⟩ := ih _ _ _ _ res h
      obtain ⟨hm0, hl0⟩ := ncfy_inner_perm stream n gfuel rfuel _ _ _ _ _ _ hin
      exact ⟨hm.trans hm0, hl.trans hl0⟩

/-- `noncontiguous_fisher_yates` permutes the union of its ranges and keeps
each range's length. -/
theorem noncontiguous_fisher_yates_perm {a : Type} (stream : Nat → Nat)
    (pos : Nat) (ranges out : List (List a)) (gfuel rfuel pos' : Nat)
    (h : noncontiguous_fisher_yates stream pos ranges gfuel rfuel =
      some (out, pos')) :
    (↑(out.flatten) : Multiset a) = ↑ranges.flatten ∧
      out.map List.length = ranges.map List.length := by
  unfold noncontiguous_fisher_yates at h
  split at h
  · simp only [Option.some.injEq, Prod.mk.injEq] at h
    rw [← h.1]
    exact ⟨rfl, rfl⟩
  · cases ho : ncfy_outer stream gfuel rfuel ranges.length ranges
        ((ranges.map List.length).foldr max 0)
        (ranges.length * ((ranges.map List.length).foldr max 0) / 2) pos with
    | none => simp only [ho] at h; exact absurd h (by simp)
    | some res =>
      simp only [ho, Option.some.injEq, Prod.mk.injEq] at h
      obtain ⟨hout, _⟩ := h
      have := ncfy_outer_perm stream gfuel rfuel _ _ _ _ _ _ ho
      rw [← hout]
      exact this

/-! ## Boundary transfer operations (src/blocked/block.rs; the file calls
the type `Block`, re-exported as the `Bucket` of src/bucketing) -/

/-- `Bucket::shrink_to_right`: swap the first `to_move = min(rhs.processed,
num)` of the `num` departing trailing slots of `left` with the last
`to_move` processed slots of `right`, then move the `num` trailing slots of
`left` to the front of `right`.  `num_processed` of both sides is
unchanged; adjacency is structural in this model.  The `assert!` that
`num <= left.num_unprocessed` is the guard. -/
def shrink_to_right {a : Type} (left right : Bucket a) (num : Nat) :
    Option (Bucket a × Bucket a) :=
  if num ≤ left.num_unprocessed then
    let to_move := min right.num_processed num
    let llen := left.data.length
    let lA := left.data.take (llen - num)
    let lM := left.data.drop (llen - num)
    let m1 := lM.take to_move
    let m2 := lM.drop to_move
    let r1 := right.data.take (right.num_processed - to_move)
    let r2 := (right.data.drop (right.num_processed - to_move)).take to_move
    let r3 := right.data.drop right.num_processed
    some (⟨lA, left.num_processed⟩,
      ⟨(r2 ++ m2) ++ (r1 ++ m1 ++ r3), right.num_processed⟩)
  else none

/-- `Bucket::grow_from_right`: move the first `num` slots of `right` to the
end of `left`, then swap the first `to_move = min(rhs.processed, num)` of
the arrived slots with the last `to_move` processed slots of the shrunk
`right`.  The `assert!` that `num <= right.num_unprocessed` is the guard. -/
def grow_from_right {a : Type} (left right : Bucket a) (num : Nat) :
    Option (Bucket a × Bucket a) :=
  if num ≤ right.num_unprocessed then
    let to_move := min right.num_processed num
    let G := right.data.take num
    let D := right.data.drop num
    let g1 := G.take to_move
    let g2 := G.drop to_move
    let d1 := D.take (right.num_processed - to_move)
    let d2 := (D.drop (right.num_processed - to_move)).take to_move
    let d3 := D.drop right.num_processed
    some (⟨left.data ++ (d2 ++ g2), left.num_processed⟩,
      ⟨d1 ++ g1 ++ d3, right.num_processed⟩)
  else none

theorem take_append_drop_parts {a : Type} (l : List a) (n : Nat) :
    (↑(l.take n) : Multiset a) + ↑(l.drop n) = ↑l := by
  rw [Multiset.coe_add]
  simp

theorem shrink_to_right_perm {a : Type} (left right l' r' : Bucket a)
    (num : Nat) (hwf : right.num_processed ≤ right.data.length)
    (h : shrink_to_right left right num = some (l', r')) :
    (↑l'.data : Multiset a) + ↑r'.data = ↑left.data + ↑right.data ∧
      l'.data.length + num = left.data.length ∧
      r'.data.length = right.data.length + num ∧
      l'.num_processed = left.num_processed ∧
      r'.num_processed = right.num_processed := by
  unfold shrink_to_right at h
  split at h
  case isFalse => simp at h
  case isTrue hg =>
    simp only [Option.some.injEq, Prod.mk.injEq] at h
    obtain ⟨hl, hr⟩ := h
    subst hl
    subst hr
    have hnum : num ≤ left.data.length := by
      have : left.num_unprocessed ≤ left.data.length := by
        unfold Bucket.num_unprocessed Bucket.len
        omega
      omega
    have htm : min right.num_processed num ≤ right.num_processed :=
      Nat.min_le_left _ _
    have htm2 : min right.num_processed num ≤ num := Nat.min_le_right _ _
    have hdd : (right.data.drop
          (right.num_processed - min right.num_processed num)).drop
          (min right.num_processed num) = right.data.drop right.num_processed := by
      rw [List.drop_drop]
      congr 1
      omega
    refine ⟨?_, ?_, ?_, rfl, rfl⟩
    · have el : (↑(left.data.take (left.data.length - num)) : Multiset a) +
          (↑((left.data.drop (left.data.length - num)).take
            (min right.num_processed num)) +
           ↑((left.data.drop (left.data.length - num)).drop
            (min right.num_processed num))) = ↑left.data := by
        rw [take_append_drop_parts, take_append_drop_parts]
      have er : (↑(right.data.take
            (right.num_processed - min right.num_processed num)) : Multiset a) +
          (↑((right.data.drop
            (right.num_processed - min right.num_processed num)).take
            (min right.num_processed num)) +
           ↑(right.data.drop right.num_processed)) = ↑right.data := by
        rw [← hdd, take_append_drop_parts, take_append_drop_parts]
      simp only [← Multiset.coe_add]
      rw [← el, ← er]
      abel
    · simp only [List.length_take]
      omega
    · simp only [List.length_append, List.length_take, List.length_drop]
      omega

theorem grow_from_right_perm {a : Type} (left right l' r' : Bucket a)
    (num : Nat) (hwf : right.num_processed ≤ right.data.length)
    (h : grow_from_right left right num = some (l', r')) :
    (↑l'.data : Multiset a) + ↑r'.data = ↑left.data + ↑right.data ∧
      l'.data.length = left.data.length + num ∧
      r'.data.length + num = right.data.length ∧
      l'.num_processed = left.num_processed ∧
      r'.num_processed = right.num_processed := by
  unfold grow_from_right at h
  split at h
  case isFalse => simp at h
  case isTrue hg =>
    simp only [Option.some.injEq, Prod.mk.injEq] at h
    obtain ⟨hl, hr⟩ := h
    subst hl
    subst hr
    have hnum : right.num_processed + num ≤ right.data.length := by
      unfold Bucket.num_unprocessed Bucket.len at hg
      omega
    have htm : min right.num_processed num ≤ right.num_processed :=
      Nat.min_le_left _ _
    have htm2 : min right.num_processed num ≤ num := Nat.min_le_right _ _
    have hdd : ((right.data.drop num).drop
          (right.num_processed - min right.num_processed num)).drop
          (min right.num_processed num) =
          (right.data.drop num).drop right.num_processed := by
      rw [List.drop_drop]
      congr 1
      omega
    refine ⟨?_, ?_, ?_, rfl, rfl⟩
    · have eg : (↑(right.data.take num) : Multiset a) +
          ↑(right.data.drop num) = ↑right.data := take_append_drop_parts _ _
      have eg2 : (↑((right.data.take num).take
            (min right.num_processed num)) : Multiset a) +
          ↑((right.data.take num).drop (min right.num_processed num)) =
          ↑(right.data.take num) := take_append_drop_parts _ _
      have ed : (↑((right.data.drop num).take
            (right.num_processed - min right.num_processed num)) : Multiset a) +
          (↑(((right.data.drop num).drop
            (right.num_processed - min right.num_processed num)).take
            (min right.num_processed num)) +
           ↑((right.data.drop num).drop right.num_processed)) =
          ↑(right.data.drop num) := by
        rw [← hdd, take_append_drop_parts, take_append_drop_parts]
      simp only [← Multiset.coe_add]
      rw [← eg, ← eg2, ← ed]
      abel
    · simp only [List.length_append, List.length_take, List.length_drop]
      omega
    · simp only [List.length_append, List.length_take, List.length_drop]
      omega

/-! ## Stash compaction (`compact_ranges`, src/scatter_shuffle/sequential.rs) -/

/-- The donor loop of `compact_ranges`, with the donors listed rightmost
first (the Rust code iterates `doners.iter_mut().rev()`).  `acc` is the
acceptor's (last bucket's) data and `na` the number of accepted stash
elements so far.  A donor's whole stash is swapped with the acceptor slots
`[L - na - ta, L - na)`; the guard `na + ta <= L` models the panicking
slice arithmetic (`suffix`). -/
def compact_go {a : Type} :
    List (Bucket a) → List a → Nat → Option (List (Bucket a) × List a)
  | [], acc, _ => some ([], acc)
  | d :: rest, acc, na =>
    if d.num_unprocessed = 0 then
      match compact_go rest acc na with
      | none => none
      | some p => some (d :: p.1, p.2)
    else
      let ta := d.num_unprocessed
      if na + ta ≤ acc.length then
        let seg := (acc.drop (acc.length - na - ta)).take ta
        let d' : Bucket a := ⟨d.data.take d.num_processed ++ seg,
          d.num_processed⟩
        let acc1 := acc.take (acc.length - na - ta) ++
          d.data.drop d.num_processed ++ acc.drop (acc.length - na)
        match compact_go rest acc1 (na + ta) with
        | none => none
        | some p => some (d' :: p.1, p.2)
      else none

/-- `compact_ranges`: the last bucket accepts every other bucket's stash,
scanning the donors right to left; each donor's stash is swapped into the
tail of the last bucket, just below the already-accepted elements. -/
def compact_ranges {a : Type} (bs : List (Bucket a)) :
    Option (List (Bucket a)) :=
  match bs.getLast? with
  | none => none
  | some acceptor =>
    match compact_go bs.dropLast.reverse acceptor.data
        acceptor.num_unprocessed with
    | none => none
    | some p => some (p.1.reverse ++ [⟨p.2, acceptor.num_processed⟩])

/-! ## Reshape sweeps (src/scatter_shuffle/sequential.rs) -/

/-- `shrink_sweep_to_right`: walk the buckets left to right with the
targets `target_lengths[0 .. N-1]`; a bucket longer than its target plus
the reservation for its left neighbours hands the excess to the next
bucket; `growth_needed_left` tracks (as a signed number) how much the
prefix still has to grow. -/
def shrink_sweep_to_right {a : Type} :
    Int → List (Bucket a) → List Nat → Option (List (Bucket a))
  | _, bs, [] => some bs
  | g, b :: rest, t :: ts =>
    let resv := g.toNat
    let twr := t + resv
    if twr < b.len then
      match rest with
      | [] => none
      | next :: rest' =>
        match shrink_to_right b next (b.len - twr) with
        | none => none
        | some p =>
          match shrink_sweep_to_right (g + (t : Int) - (p.1.len : Int))
              (p.2 :: rest') ts with
          | none => none
          | some bs' => some (p.1 :: bs')
    else
      match shrink_sweep_to_right (g + (t : Int) - (b.len : Int)) rest ts with
      | none => none
      | some bs' => some (b :: bs')
  | _, [], _ :: _ => none

/-- The loop of `shrink_sweep_to_left` on the reversed bucket list
(the Rust code iterates `target_lengths[1..].iter().rev()`, repeatedly
splitting off the last bucket): a bucket longer than its target hands the
excess to its left neighbour via `grow_from_right`. -/
def shrink_sweep_to_left_rev {a : Type} :
    List (Bucket a) → List Nat → Option (List (Bucket a))
  | bs, [] => some bs
  | b :: rest, t :: ts =>
    if b.len ≤ t then
      match shrink_sweep_to_left_rev rest ts with
      | none => none
      | some rest' => some (b :: rest')
    else
      match rest with
      | [] => none
      | prev :: rest' =>
        match grow_from_right prev b (b.len - t) with
        | none => none
        | some p =>
          match shrink_sweep_to_left_rev (p.1 :: rest') ts with
          | none => none
          | some rest'' => some (p.2 :: rest'')
  | [], _ :: _ => none

/-- `shrink_sweep_to_left` on the buckets in their natural order. -/
def shrink_sweep_to_left {a : Type} (bs : List (Bucket a)) (ts : List Nat) :
    Option (List (Bucket a)) :=
  match shrink_sweep_to_left_rev bs.reverse (ts.drop 1).reverse with
  | none => none
  | some rbs => some rbs.reverse

/-- `move_buckets_to_fit_target_len`: the left-to-right shrink sweep
followed by the right-to-left sweep (the final `debug_assert!` is compiled
out in release builds). -/
def move_buckets_to_fit_target_len {a : Type} (bs : List (Bucket a))
    (ts : List Nat) : Option (List (Bucket a)) :=
  match shrink_sweep_to_right 0 bs ts.dropLast with
  | none => none
  | some bs1 => shrink_sweep_to_left bs1 ts

/-! ## `shuffle_stashes` and the sequential driver
(src/scatter_shuffle/sequential.rs) -/

/-- `shuffle_stashes`: when the combined stash fits into the last bucket,
compact all stashes into the last bucket's tail, recursively shuffle that
contiguous run, and scatter it back with a second `compact_ranges`;
otherwise shuffle the stashes in place with the noncontiguous Fisher-Yates
fallback. -/
def shuffle_stashes {a : Type} (stream : Nat → Nat) (gfuel rfuel : Nat)
    (pos : Nat) (bs : List (Bucket a))
    (recurse : Nat → List a → Option (List a × Nat)) :
    Option (List (Bucket a) × Nat) :=
  let stash_size := total_unprocessed bs
  match bs.getLast? with
  | none => none
  | some lastB =>
    if stash_size ≤ lastB.len then
      match compact_ranges bs with
      | none => none
      | some bs1 =>
        match bs1.getLast? with
        | none => none
        | some lastB1 =>
          match recurse pos (lastB1.data.drop (lastB1.len - stash_size)) with
          | none => none
          | some r =>
            let bs2 := bs1.dropLast ++
              [⟨lastB1.data.take (lastB1.len - stash_size) ++ r.1,
                lastB1.num_processed⟩]
            match compact_ranges bs2 with
            | none => none
            | some bs3 => some (bs3, r.2)
    else
      match noncontiguous_fisher_yates stream pos
          (bs.map Bucket.data_unprocessed) gfuel rfuel with
      | none => none
      | some r =>
        some (List.zipWith
          (fun (b : Bucket a) (rg : List a) =>
            (⟨b.data.take b.num_processed ++ rg, b.num_processed⟩ : Bucket a))
          bs r.1, r.2)

/-- The recursion over the buckets at the end of `shuffle`
(`for bucket in &mut buckets { self.shuffle_adaptive(rng, bucket.data_mut()) }`). -/
def shuffle_each {a : Type}
    (recurse : Nat → List a → Option (List a × Nat)) :
    Nat → List (Bucket a) → Option (List (Bucket a) × Nat)
  | pos, [] => some ([], pos)
  | pos, b :: rest =>
    match recurse pos b.data with
    | none => none
    | some r =>
      match shuffle_each recurse r.2 rest with
      | none => none
      | some p => some ((⟨r.1, b.num_processed⟩ : Bucket a) :: p.1, p.2)

/-- The sequential driver `SeqScatterShuffleImpl` with the default
configuration (base-case shuffle = `fisher_yates`, recursion enabled).
`adaptive = true` is `shuffle_adaptive`, `adaptive = false` is `shuffle`;
`logN` is the compile-time `LOG_NUM_BUCKETS` (so `NUM_BUCKETS = 2^logN`)
and `base` is `seq_base_case_size()`.  The recursion fuel is an artifact of
the embedding (every recursive call shrinks the data, but the bound is
easiest threaded as fuel); `gfuel`/`rfuel` bound the sampler rejection
loops. -/
def seq_shuffle {a : Type} (stream : Nat → Nat) (binom : Nat → Nat → Nat)
    (gfuel rfuel : Nat) :
    Nat → Bool → Nat → Nat → Nat → List a → Option (List a × Nat)
  | 0, _, _, _, _, _ => none
  | fuel + 1, true, logN, base, pos, data =>
    -- shuffle_adaptive
    if base = 0 then none
    else
      let num_buckets := data.length / base * 2
      if num_buckets ≤ 2 then fisher_yates stream pos data gfuel
      else if 2 ^ logN ≤ num_buckets then
        seq_shuffle stream binom gfuel rfuel fuel false logN base pos data
      else
        let lg := Nat.log2 num_buckets
        if 1 ≤ lg ∧ lg ≤ 10 then
          seq_shuffle stream binom gfuel rfuel fuel false lg base pos data
        else
          seq_shuffle stream binom gfuel rfuel fuel false logN base pos data
  | fuel + 1, false, logN, base, pos, data =>
    -- shuffle
    if data.length ≤ base then fisher_yates stream pos data gfuel
    else
      let bs := split_slice_into_equally_sized_buckets (2 ^ logN) data
      match rough_shuffle logN stream (data.length + 1) pos bs with
      | none => none
      | some rs =>
        let num_unprocessed := total_unprocessed rs.1
        let target_lengths := sample_final_bucket_size binom num_unprocessed rs.1
        match move_buckets_to_fit_target_len rs.1 target_lengths with
        | none => none
        | some bs2 =>
          match shuffle_stashes stream gfuel rfuel rs.2 bs2
              (fun p d =>
                seq_shuffle stream binom gfuel rfuel fuel true logN base p d) with
          | none => none
          | some ss =>
            match shuffle_each
                (fun p d =>
                  seq_shuffle stream binom gfuel rfuel fuel true logN base p d)
                ss.2 ss.1 with
            | none => none
            | some fin => some (buckets_data fin.1, fin.2)

/-- `seq_scatter_shuffle` with the crate's default configuration:
`LOG_NUM_BUCKETS = 7`, `seq_base_case_size = 2^19`, entered through
`shuffle_adaptive`. -/
def seq_scatter_shuffle {a : Type} (stream : Nat → Nat)
    (binom : Nat → Nat → Nat) (gfuel rfuel fuel pos : Nat) (data : List a) :
    Option (List a × Nat) :=
  seq_shuffle stream binom gfuel rfuel fuel true 7 (2 ^ 19) pos data

theorem shrink_to_right_coe {a : Type} (left right l' r' : Bucket a)
    (num : Nat) (h : shrink_to_right left right num = some (l', r')) :
    (↑l'.data : Multiset a) + ↑r'.data = ↑left.data + ↑right.data ∧
      l'.num_processed = left.num_processed ∧
      r'.num_processed = right.num_processed := by
  unfold shrink_to_right at h
  split at h
  case isFalse => simp at h
  case isTrue hg =>
    simp only [Option.some.injEq, Prod.mk.injEq] at h
    obtain ⟨hl, hr⟩ := h
    subst hl
    subst hr
    have htm : min right.num_processed num ≤ right.num_processed :=
      Nat.min_le_left _ _
    have hdd : (right.data.drop
          (right.num_processed - min right.num_processed num)).drop
          (min right.num_processed num) = right.data.drop right.num_processed := by
      rw [List.drop_drop]
      congr 1
      omega
    refine ⟨?_, rfl, rfl⟩
    have el : (↑(left.data.take (left.data.length - num)) : Multiset a) +
        (↑((left.data.drop (left.data.length - num)).take
          (min right.num_processed num)) +
         ↑((left.data.drop (left.data.length - num)).drop
          (min right.num_processed num))) = ↑left.data := by
      rw [take_append_drop_parts, take_append_drop_parts]
    have er : (↑(right.data.take
          (right.num_processed - min right.num_processed num)) : Multiset a) +
        (↑((right.data.drop
          (right.num_processed - min right.num_processed num)).take
          (min right.num_processed num)) +
         ↑(right.data.drop right.num_processed)) = ↑right.data := by
      rw [← hdd, take_append_drop_parts, take_append_drop_parts]
    simp only [← Multiset.coe_add]
    rw [← el, ← er]
    abel

theorem grow_from_right_coe {a : Type} (left right l' r' : Bucket a)
    (num : Nat) (h : grow_from_right left right num = some (l', r')) :
    (↑l'.data : Multiset a) + ↑r'.data = ↑left.data + ↑right.data ∧
      l'.num_processed = left.num_processed ∧
      r'.num_processed = right.num_processed := by
  unfold grow_from_right at h
  split at h
  case isFalse => simp at h
  case isTrue hg =>
    simp only [Option.some.injEq, Prod.mk.injEq] at h
    obtain ⟨hl, hr⟩ := h
    subst hl
    subst hr
    have htm : min right.num_processed num ≤ right.num_processed :=
      Nat.min_le_left _ _
    have hdd : ((right.data.drop num).drop
          (right.num_processed - min right.num_processed num)).drop
          (min right.num_processed num) =
          (right.data.drop num).drop right.num_processed := by
      rw [List.drop_drop]
      congr 1
      omega
    refine ⟨?_, rfl, rfl⟩
    have eg : (↑(right.data.take num) : Multiset a) +
        ↑(right.data.drop num) = ↑right.data := take_append_drop_parts _ _
    have eg2 : (↑((right.data.take num).take
          (min right.num_processed num)) : Multiset a) +
        ↑((right.data.take num).drop (min right.num_processed num)) =
        ↑(right.data.take num) := take_append_drop_parts _ _
    have ed : (↑((right.data.drop num).take
          (right.num_processed - min right.num_processed num)) : Multiset a) +
        (↑(((right.data.drop num).drop
          (right.num_processed - min right.num_processed num)).take
          (min right.num_processed num)) +
         ↑((right.data.drop num).drop right.num_processed)) =
        ↑(right.data.drop num) := by
      rw [← hdd, take_append_drop_parts, take_append_drop_parts]
    simp only [← Multiset.coe_add]
    rw [← eg, ← eg2, ← ed]
    abel

theorem compact_go_perm {a : Type} :
    ∀ (ds : List (Bucket a)) (acc : List a) (na : Nat) res,
      compact_go ds acc na = some res →
      (↑(buckets_data res.1) : Multiset a) + ↑res.2 =
        ↑(buckets_data ds) + ↑acc ∧
      res.1.map Bucket.len = ds.map Bucket.len ∧
      res.2.length = acc.length ∧
      res.1.map Bucket.num_processed = ds.map Bucket.num_processed := by
  intro ds
  induction ds with
  | nil =>
    intro acc na res h
    simp only [compact_go, Option.some.injEq] at h
    subst h
    simp [buckets_data]
  | cons d rest ih =>
    intro acc na res h
    simp only [compact_go] at h
    split at h
    case isTrue h0 =>
      cases hrec : compact_go rest acc na with
      | none => rw [hrec] at h; simp at h
      | some p =>
        rw [hrec] at h
        simp only [Option.some.injEq] at h
        subst h
        obtain ⟨hm, hl, ha, hn⟩ := ih acc na p hrec
        refine ⟨?_, by simp [hl], ha, by simp [hn]⟩
        simp only [buckets_data_cons, ← Multiset.coe_add]
        calc (↑d.data : Multiset a) + ↑(buckets_data p.1) + ↑p.2
            = ↑d.data + (↑(buckets_data p.1) + ↑p.2) := by abel
          _ = ↑d.data + (↑(buckets_data rest) + ↑acc) := by rw [hm]
          _ = ↑d.data + ↑(buckets_data rest) + ↑acc := by abel
    case isFalse h0 =>
      split at h
      case isFalse => simp at h
      case isTrue hguard =>
        have hnp : d.num_processed < d.data.length := by
          unfold Bucket.num_unprocessed Bucket.len at h0
          omega
        cases hrec : compact_go rest
            (acc.take (acc.length - na - d.num_unprocessed) ++
              d.data.drop d.num_processed ++
              acc.drop (acc.length - na)) (na + d.num_unprocessed) with
        | none => rw [hrec] at h; simp at h
        | some p =>
          rw [hrec] at h
          simp only [Option.some.injEq] at h
          subst h
          obtain ⟨hm, hl, ha, hn⟩ := ih _ _ p hrec
          have hta : d.num_unprocessed ≤ acc.length - na := by omega
          have hsegsplit :
              (↑(acc.drop (acc.length - na - d.num_unprocessed)) : Multiset a) =
              ↑((acc.drop (acc.length - na - d.num_unprocessed)).take
                d.num_unprocessed) + ↑(acc.drop (acc.length - na)) := by
            have hdd : (acc.drop (acc.length - na - d.num_unprocessed)).drop
                d.num_unprocessed = acc.drop (acc.length - na) := by
              rw [List.drop_drop]
              congr 1
              omega
            rw [← hdd, take_append_drop_parts]
          constructor
          · simp only [buckets_data_cons, ← Multiset.coe_add]
            have hacc : (↑acc : Multiset a) =
                ↑(acc.take (acc.length - na - d.num_unprocessed)) +
                (↑((acc.drop (acc.length - na - d.num_unprocessed)).take
                  d.num_unprocessed) + ↑(acc.drop (acc.length - na))) := by
              rw [← hsegsplit, take_append_drop_parts]
            have hd : (↑d.data : Multiset a) =
                ↑(d.data.take d.num_processed) +
                ↑(d.data.drop d.num_processed) :=
              (take_append_drop_parts _ _).symm
            calc (↑(d.data.take d.num_processed) : Multiset a) +
                ↑((acc.drop (acc.length - na - d.num_unprocessed)).take
                  d.num_unprocessed) + ↑(buckets_data p.1) + ↑p.2
                = ↑(d.data.take d.num_processed) +
                  ↑((acc.drop (acc.length - na - d.num_unprocessed)).take
                    d.num_unprocessed) + (↑(buckets_data p.1) + ↑p.2) := by abel
              _ = ↑(d.data.take d.num_processed) +
                  ↑((acc.drop (acc.length - na - d.num_unprocessed)).take
                    d.num_unprocessed) + (↑(buckets_data rest) +
                  (↑(acc.take (acc.length - na - d.num_unprocessed)) +
                    ↑(d.data.drop d.num_processed) +
                    ↑(acc.drop (acc.length - na)))) := by
                  rw [hm]
                  simp only [← Multiset.coe_add]
              _ = (↑(d.data.take d.num_processed) +
                    ↑(d.data.drop d.num_processed)) + ↑(buckets_data rest) +
                  (↑(acc.take (acc.length - na - d.num_unprocessed)) +
                  (↑((acc.drop (acc.length - na - d.num_unprocessed)).take
                    d.num_unprocessed) + ↑(acc.drop (acc.length - na)))) := by
                  abel
              _ = ↑d.data + ↑(buckets_data rest) + ↑acc := by
                  rw [← hd, ← hacc]
          · refine ⟨?_, ?_, ?_⟩
            · simp only [List.map_cons, hl]
              congr 1
              unfold Bucket.num_unprocessed Bucket.len at h0 hguard hta ⊢
              simp only [List.length_append, List.length_take,
                List.length_drop]
              omega
            · rw [ha]
              have e1 : (acc.take
                  (acc.length - na - d.num_unprocessed)).length =
                  acc.length - na - d.num_unprocessed := by
                rw [List.length_take]
                omega
              have e2 : (d.data.drop d.num_processed).length =
                  d.num_unprocessed := by
                rw [List.length_drop]
                rfl
              have e3 : (acc.drop (acc.length - na)).length = na := by
                rw [List.length_drop]
                omega
              simp only [List.length_append, e1, e2, e3]
              omega
            · simp [hn]

theorem coe_buckets_data_reverse {a : Type} (l : List (Bucket a)) :
    (↑(buckets_data l.reverse) : Multiset a) = ↑(buckets_data l) := by
  induction l with
  | nil => rfl
  | cons c t ih =>
    simp only [buckets_data, List.reverse_cons, List.map_append,
      List.map_cons, List.flatten_append, List.map_nil, List.flatten_cons,
      List.flatten_nil, List.append_nil, List.map_reverse] at ih ⊢
    rw [← Multiset.coe_add, ← Multiset.coe_add, ih]
    abel

theorem buckets_data_append {a : Type} (l1 l2 : List (Bucket a)) :
    buckets_data (l1 ++ l2) = buckets_data l1 ++ buckets_data l2 := by
  simp [buckets_data]

/-- `compact_ranges` permutes the parent array and preserves every bucket's
boundaries and `num_processed`. -/
theorem compact_ranges_perm {a : Type} (bs bs' : List (Bucket a))
    (h : compact_ranges bs = some bs') :
    (↑(buckets_data bs') : Multiset a) = ↑(buckets_data bs) ∧
      bs'.map Bucket.len = bs.map Bucket.len ∧
      bs'.map Bucket.num_processed = bs.map Bucket.num_processed := by
  unfold compact_ranges at h
  cases hl : bs.getLast? with
  | none => rw [hl] at h; simp at h
  | some acceptor =>
    simp only [hl] at h
    cases hc : compact_go bs.dropLast.reverse acceptor.data
        acceptor.num_unprocessed with
    | none => rw [hc] at h; simp at h
    | some p =>
      rw [hc] at h
      simp only [Option.some.injEq] at h
      subst h
      obtain ⟨hm, hlen, hacc, hnp⟩ := compact_go_perm _ _ _ _ hc
      have hsplit : bs.dropLast ++ [acceptor] = bs :=
        List.dropLast_append_getLast? acceptor (by rw [hl]; rfl)
      refine ⟨?_, ?_, ?_⟩
      · calc (↑(buckets_data (p.1.reverse ++
            [⟨p.2, acceptor.num_processed⟩])) : Multiset a)
            = ↑(buckets_data p.1.reverse) + ↑p.2 := by
              rw [buckets_data_append]
              simp [buckets_data, ← Multiset.coe_add]
          _ = ↑(buckets_data p.1) + ↑p.2 := by rw [coe_buckets_data_reverse]
          _ = ↑(buckets_data bs.dropLast.reverse) + ↑acceptor.data := hm
          _ = ↑(buckets_data bs.dropLast) + ↑acceptor.data := by
              rw [coe_buckets_data_reverse]
          _ = ↑(buckets_data (bs.dropLast ++ [acceptor])) := by
              rw [buckets_data_append]
              simp [buckets_data, ← Multiset.coe_add]
          _ = ↑(buckets_data bs) := by rw [hsplit]
      · have h2 : (p.1.reverse ++
            [(⟨p.2, acceptor.num_processed⟩ : Bucket a)]).map Bucket.len =
            (bs.dropLast ++ [acceptor]).map Bucket.len := by
          simp only [List.map_append, List.map_cons, List.map_nil,
            List.map_reverse]
          rw [List.map_reverse] at hlen
          rw [hlen, List.reverse_reverse]
          simp only [Bucket.len, hacc]
        rw [hsplit] at h2
        exact h2
      · have h2 : (p.1.reverse ++
            [(⟨p.2, acceptor.num_processed⟩ : Bucket a)]).map
            Bucket.num_processed =
            (bs.dropLast ++ [acceptor]).map Bucket.num_processed := by
          simp only [List.map_append, List.map_cons, List.map_nil,
            List.map_reverse]
          rw [List.map_reverse] at hnp
          rw [hnp, List.reverse_reverse]
        rw [hsplit] at h2
        exact h2

theorem take_add_split {a : Type} (l : List a) (m n : Nat) :
    l.take (m + n) = l.take m ++ (l.drop m).take n := by
  rw [List.take_drop]
  conv_lhs => rw [← List.take_append_drop m (l.take (m + n))]
  congr 1
  rw [List.take_take]
  congr 1
  omega

theorem split_buckets_data {a : Type} (N : Nat) (data : List a)
    (hN : 1 ≤ N) :
    buckets_data (split_slice_into_equally_sized_buckets N data) = data := by
  have key : ∀ k, k ≤ N →
      buckets_data ((List.range k).map fun i =>
        (⟨(data.drop (i * data.length / N)).take
          ((i + 1) * data.length / N - i * data.length / N), 0⟩ : Bucket a)) =
      data.take (k * data.length / N) := by
    intro k
    induction k with
    | zero => intro _; simp [buckets_data]
    | succ m ih =>
      intro hm
      rw [List.range_succ, List.map_append]
      rw [buckets_data_append, ih (by omega)]
      simp only [List.map_cons, List.map_nil, buckets_data,
        List.flatten_cons, List.flatten_nil, List.append_nil]
      have hmono : m * data.length / N ≤ (m + 1) * data.length / N :=
        Nat.div_le_div_right (by
          have : m * data.length ≤ (m + 1) * data.length :=
            Nat.mul_le_mul_right _ (by omega)
          exact this)
      rw [← take_add_split]
      congr 1
      omega
  have := key N (Nat.le_refl N)
  unfold split_slice_into_equally_sized_buckets
  rw [this]
  have : N * data.length / N = data.length := by
    rw [Nat.mul_div_cancel_left _ (by omega)]
  rw [this, List.take_length]

/-- `shrink_sweep_to_right` permutes the parent array and preserves each
bucket's `num_processed`. -/
theorem shrink_sweep_to_right_coe {a : Type} :
    ∀ (ts : List Nat) (g : Int) (bs bs' : List (Bucket a)),
      shrink_sweep_to_right g bs ts = some bs' →
      (↑(buckets_data bs') : Multiset a) = ↑(buckets_data bs) ∧
        bs'.map Bucket.num_processed = bs.map Bucket.num_processed := by
  intro ts
  induction ts with
  | nil =>
    intro g bs bs' h
    simp only [shrink_sweep_to_right, Option.some.injEq] at h
    subst h
    exact ⟨rfl, rfl⟩
  | cons t ts ih =>
    intro g bs bs' h
    cases bs with
    | nil => simp [shrink_sweep_to_right] at h
    | cons b rest =>
      simp only [shrink_sweep_to_right] at h
      split at h
      case isTrue hlt =>
        cases rest with
        | nil => simp at h
        | cons next rest' =>
          dsimp only at h
          cases hsh : shrink_to_right b next (b.len - (t + g.toNat)) with
          | none => simp only [hsh] at h; exact absurd h (by simp)
          | some p =>
            simp only [hsh] at h
            cases hrec : shrink_sweep_to_right
                (g + (t : Int) - (p.1.len : Int)) (p.2 :: rest') ts with
            | none => simp only [hrec] at h; exact absurd h (by simp)
            | some bs2 =>
              simp only [hrec, Option.some.injEq] at h
              subst h
              obtain ⟨hm, hn⟩ := ih _ _ _ hrec
              obtain ⟨hsw, hnp1, hnp2⟩ := shrink_to_right_coe b next p.1 p.2 _ hsh
              constructor
              · rw [buckets_data_cons, ← Multiset.coe_add, hm]
                rw [buckets_data_cons, buckets_data_cons, buckets_data_cons]
                simp only [← Multiset.coe_add]
                calc (↑p.1.data : Multiset a) +
                    (↑p.2.data + ↑(buckets_data rest'))
                    = (↑p.1.data + ↑p.2.data) + ↑(buckets_data rest') := by abel
                  _ = (↑b.data + ↑next.data) + ↑(buckets_data rest') := by
                      rw [hsw]
                  _ = ↑b.data + (↑next.data + ↑(buckets_data rest')) := by abel
              · simp only [List.map_cons] at hn ⊢
                rw [hnp1, hn, hnp2]
      case isFalse hlt =>
        cases hrec : shrink_sweep_to_right (g + (t : Int) - (b.len : Int))
            rest ts with
        | none => rw [hrec] at h; simp at h
        | some bs2 =>
          rw [hrec] at h
          simp only [Option.some.injEq] at h
          subst h
          obtain ⟨hm, hn⟩ := ih _ _ _ hrec
          constructor
          · rw [buckets_data_cons, buckets_data_cons, ← Multiset.coe_add,
              ← Multiset.coe_add, hm]
          · simp [hn]

/-- The reversed left sweep permutes the parent array (of the reversed
bucket list) and preserves `num_processed`. -/
theorem shrink_sweep_to_left_rev_coe {a : Type} :
    ∀ (ts : List Nat) (bs bs' : List (Bucket a)),
      shrink_sweep_to_left_rev bs ts = some bs' →
      (↑(buckets_data bs') : Multiset a) = ↑(buckets_data bs) ∧
        bs'.map Bucket.num_processed = bs.map Bucket.num_processed := by
  intro ts
  induction ts with
  | nil =>
    intro bs bs' h
    simp only [shrink_sweep_to_left_rev, Option.some.injEq] at h
    subst h
    exact ⟨rfl, rfl⟩
  | cons t ts ih =>
    intro bs bs' h
    cases bs with
    | nil => simp [shrink_sweep_to_left_rev] at h
    | cons b rest =>
      simp only [shrink_sweep_to_left_rev] at h
      split at h
      case isTrue hle =>
        cases hrec : shrink_sweep_to_left_rev rest ts with
        | none => rw [hrec] at h; simp at h
        | some rest2 =>
          rw [hrec] at h
          simp only [Option.some.injEq] at h
          subst h
          obtain ⟨hm, hn⟩ := ih _ _ hrec
          constructor
          · rw [buckets_data_cons, buckets_data_cons, ← Multiset.coe_add,
              ← Multiset.coe_add, hm]
          · simp [hn]
      case isFalse hle =>
        cases rest with
        | nil => simp at h
        | cons prev rest' =>
          dsimp only at h
          cases hgr : grow_from_right prev b (b.len - t) with
          | none => simp only [hgr] at h; exact absurd h (by simp)
          | some p =>
            simp only [hgr] at h
            cases hrec : shrink_sweep_to_left_rev (p.1 :: rest') ts with
            | none => simp only [hrec] at h; exact absurd h (by simp)
            | some rest2 =>
              simp only [hrec, Option.some.injEq] at h
              subst h
              obtain ⟨hm, hn⟩ := ih _ _ hrec
              obtain ⟨hsw, hnp1, hnp2⟩ := grow_from_right_coe prev b p.1 p.2 _ hgr
              constructor
              · rw [buckets_data_cons, ← Multiset.coe_add, hm]
                rw [buckets_data_cons, buckets_data_cons, buckets_data_cons]
                simp only [← Multiset.coe_add]
                calc (↑p.2.data : Multiset a) +
                    (↑p.1.data + ↑(buckets_data rest'))
                    = (↑p.1.data + ↑p.2.data) + ↑(buckets_data rest') := by abel
                  _ = (↑prev.data + ↑b.data) + ↑(buckets_data rest') := by
                      rw [hsw]
                  _ = ↑b.data + (↑prev.data + ↑(buckets_data rest')) := by abel
              · simp only [List.map_cons] at hn ⊢
                rw [hnp2, hn, hnp1]

/-- `move_buckets_to_fit_target_len` permutes the parent array and
preserves each bucket's `num_processed`. -/
theorem move_buckets_perm {a : Type} (bs bs' : List (Bucket a))
    (ts : List Nat) (h : move_buckets_to_fit_target_len bs ts = some bs') :
    (↑(buckets_data bs') : Multiset a) = ↑(buckets_data bs) ∧
      bs'.map Bucket.num_processed = bs.map Bucket.num_processed := by
  unfold move_buckets_to_fit_target_len at h
  cases h1 : shrink_sweep_to_right 0 bs ts.dropLast with
  | none => rw [h1] at h; simp at h
  | some bs1 =>
    simp only [h1] at h
    unfold shrink_sweep_to_left at h
    cases h2 : shrink_sweep_to_left_rev bs1.reverse (ts.drop 1).reverse with
    | none => simp only [h2] at h; exact absurd h (by simp)
    | some rbs =>
      simp only [h2, Option.some.injEq] at h
      subst h
      obtain ⟨hm1, hn1⟩ := shrink_sweep_to_right_coe _ _ _ _ h1
      obtain ⟨hm2, hn2⟩ := shrink_sweep_to_left_rev_coe _ _ _ h2
      constructor
      · calc (↑(buckets_data rbs.reverse) : Multiset a)
            = ↑(buckets_data rbs) := coe_buckets_data_reverse _
          _ = ↑(buckets_data bs1.reverse) := hm2
          _ = ↑(buckets_data bs1) := coe_buckets_data_reverse _
          _ = ↑(buckets_data bs) := hm1
      · rw [List.map_reverse, hn2, List.map_reverse, List.reverse_reverse]
        exact hn1

theorem bd_split_stash {a : Type} (bs : List (Bucket a)) :
    (↑(buckets_data bs) : Multiset a) =
      ↑((bs.map fun b => b.data.take b.num_processed).flatten) +
      ↑((bs.map Bucket.data_unprocessed).flatten) := by
  induction bs with
  | nil => rfl
  | cons b rest ih =>
    rw [buckets_data_cons]
    simp only [List.map_cons, List.flatten_cons, ← Multiset.coe_add]
    rw [ih]
    have hb : (↑b.data : Multiset a) =
        ↑(b.data.take b.num_processed) + ↑b.data_unprocessed :=
      (take_append_drop_parts _ _).symm
    rw [hb]
    abel

theorem bd_rebuild {a : Type} :
    ∀ (bs : List (Bucket a)) (rs : List (List a)),
      bs.length = rs.length →
      (↑(buckets_data (List.zipWith
        (fun (b : Bucket a) (rg : List a) =>
          (⟨b.data.take b.num_processed ++ rg, b.num_processed⟩ : Bucket a))
        bs rs)) : Multiset a) =
      ↑((bs.map fun b => b.data.take b.num_processed).flatten) + ↑rs.flatten := by
  intro bs
  induction bs with
  | nil =>
    intro rs h
    cases rs with
    | nil => rfl
    | cons r rs' => simp at h
  | cons b rest ih =>
    intro rs h
    cases rs with
    | nil => simp at h
    | cons r rs' =>
      simp only [List.zipWith_cons_cons]
      rw [buckets_data_cons]
      simp only [List.map_cons, List.flatten_cons, ← Multiset.coe_add]
      rw [ih rs' (by simpa using h)]
      abel

/-- `shuffle_stashes` permutes the parent array provided the recursive
shuffle it is handed permutes its input. -/
theorem shuffle_stashes_perm {a : Type} (stream : Nat → Nat)
    (gfuel rfuel pos : Nat) (bs : List (Bucket a))
    (recurse : Nat → List a → Option (List a × Nat))
    (hrec : ∀ p d r, recurse p d = some r → (↑r.1 : Multiset a) = ↑d)
    (bs' : List (Bucket a)) (pos' : Nat)
    (h : shuffle_stashes stream gfuel rfuel pos bs recurse = some (bs', pos')) :
    (↑(buckets_data bs') : Multiset a) = ↑(buckets_data bs) := by
  unfold shuffle_stashes at h
  cases hl : bs.getLast? with
  | none => simp only [hl] at h; exact absurd h (by simp)
  | some lastB =>
    simp only [hl] at h
    split at h
    case isTrue hfits =>
      cases hc1 : compact_ranges bs with
      | none => simp only [hc1] at h; exact absurd h (by simp)
      | some bs1 =>
        simp only [hc1] at h
        cases hl1 : bs1.getLast? with
        | none => simp only [hl1] at h; exact absurd h (by simp)
        | some lastB1 =>
          simp only [hl1] at h
          cases hr : recurse pos
              (lastB1.data.drop (lastB1.len - total_unprocessed bs)) with
          | none => simp only [hr] at h; exact absurd h (by simp)
          | some r =>
            simp only [hr] at h
            cases hc2 : compact_ranges (bs1.dropLast ++
                [⟨lastB1.data.take (lastB1.len - total_unprocessed bs) ++ r.1,
                  lastB1.num_processed⟩]) with
            | none => simp only [hc2] at h; exact absurd h (by simp)
            | some bs3 =>
              simp only [hc2, Option.some.injEq, Prod.mk.injEq] at h
              obtain ⟨hb3, _⟩ := h
              subst hb3
              have hm1 := (compact_ranges_perm bs bs1 hc1).1
              have hm2 := (compact_ranges_perm _ _ hc2).1
              have hrm := hrec pos _ r hr
              have hsplit1 : bs1.dropLast ++ [lastB1] = bs1 :=
                List.dropLast_append_getLast? lastB1 (by rw [hl1]; rfl)
              calc (↑(buckets_data bs3) : Multiset a)
                  = ↑(buckets_data (bs1.dropLast ++
                    [⟨lastB1.data.take (lastB1.len - total_unprocessed bs) ++
                      r.1, lastB1.num_processed⟩])) := hm2
                _ = ↑(buckets_data bs1.dropLast) +
                    (↑(lastB1.data.take (lastB1.len - total_unprocessed bs)) +
                     ↑r.1) := by
                    rw [buckets_data_append]
                    simp [buckets_data, ← Multiset.coe_add]
                _ = ↑(buckets_data bs1.dropLast) +
                    (↑(lastB1.data.take (lastB1.len - total_unprocessed bs)) +
                     ↑(lastB1.data.drop (lastB1.len - total_unprocessed bs))) := by
                    rw [hrm]
                _ = ↑(buckets_data bs1.dropLast) + ↑lastB1.data := by
                    rw [take_append_drop_parts]
                _ = ↑(buckets_data (bs1.dropLast ++ [lastB1])) := by
                    rw [buckets_data_append]
                    simp [buckets_data, ← Multiset.coe_add]
                _ = ↑(buckets_data bs1) := by rw [hsplit1]
                _ = ↑(buckets_data bs) := hm1
    case isFalse hfits =>
      cases hn : noncontiguous_fisher_yates stream pos
          (bs.map Bucket.data_unprocessed) gfuel rfuel with
      | none => simp only [hn] at h; exact absurd h (by simp)
      | some r =>
        simp only [hn, Option.some.injEq, Prod.mk.injEq] at h
        obtain ⟨hb, _⟩ := h
        subst hb
        obtain ⟨hflat, hlens⟩ :=
          noncontiguous_fisher_yates_perm stream pos _ r.1 gfuel rfuel r.2
            (by rw [hn])
        have hlen : bs.length = r.1.length := by
          have := congrArg List.length hlens
          simpa using this.symm
        rw [bd_rebuild bs r.1 hlen, hflat, ← bd_split_stash]

/-- `shuffle_each` permutes the parent array provided the recursive
shuffle it is handed permutes its input. -/
theorem shuffle_each_perm {a : Type}
    (recurse : Nat → List a → Option (List a × Nat))
    (hrec : ∀ p d r, recurse p d = some r → (↑r.1 : Multiset a) = ↑d) :
    ∀ (bs : List (Bucket a)) (pos : Nat) res,
      shuffle_each recurse pos bs = some res →
      (↑(buckets_data res.1) : Multiset a) = ↑(buckets_data bs) := by
  intro bs
  induction bs with
  | nil =>
    intro pos res h
    simp only [shuffle_each, Option.some.injEq] at h
    subst h
    rfl
  | cons b rest ih =>
    intro pos res h
    simp only [shuffle_each] at h
    cases hr : recurse pos b.data with
    | none => simp only [hr] at h; exact absurd h (by simp)
    | some r =>
      simp only [hr] at h
      cases hrest : shuffle_each recurse r.2 rest with
      | none => simp only [hrest] at h; exact absurd h (by simp)
      | some p =>
        simp only [hrest, Option.some.injEq] at h
        subst h
        rw [buckets_data_cons, buckets_data_cons]
        simp only [← Multiset.coe_add]
        rw [ih r.2 p hrest, hrec pos b.data r hr]

theorem seq_shuffle_perm_aux {a : Type} (stream : Nat → Nat)
    (binom : Nat → Nat → Nat) (gfuel rfuel : Nat) :
    ∀ (fuel : Nat) (adaptive : Bool) (logN base pos : Nat)
      (data out : List a) (pos' : Nat),
      seq_shuffle stream binom gfuel rfuel fuel adaptive logN base pos data =
        some (out, pos') →
      (↑out : Multiset a) = ↑data := by
  intro fuel
  induction fuel with
  | zero =>
    intro adaptive logN base pos data out pos' h
    simp [seq_shuffle] at h
  | succ n ih =>
    intro adaptive logN base pos data out pos' h
    cases adaptive with
    | true =>
      simp only [seq_shuffle] at h
      split at h
      case isTrue => exact absurd h (by simp)
      case isFalse hb0 =>
        split at h
        case isTrue => exact fisher_yates_perm stream pos data out gfuel pos' h
        case isFalse =>
          split at h
          case isTrue => exact ih false logN base pos data out pos' h
          case isFalse =>
            split at h
            case isTrue =>
              exact ih false (Nat.log2 (data.length / base * 2)) base pos
                data out pos' h
            case isFalse => exact ih false logN base pos data out pos' h
    | false =>
      simp only [seq_shuffle] at h
      split at h
      case isTrue => exact fisher_yates_perm stream pos data out gfuel pos' h
      case isFalse hbase =>
        cases hr : rough_shuffle logN stream (data.length + 1) pos
            (split_slice_into_equally_sized_buckets (2 ^ logN) data) with
        | none => simp only [hr] at h; exact absurd h (by simp)
        | some rs =>
          simp only [hr] at h
          cases hmv : move_buckets_to_fit_target_len rs.1
              (sample_final_bucket_size binom (total_unprocessed rs.1) rs.1) with
          | none => simp only [hmv] at h; exact absurd h (by simp)
          | some bs2 =>
            simp only [hmv] at h
            cases hss : shuffle_stashes stream gfuel rfuel rs.2 bs2
                (fun p d =>
                  seq_shuffle stream binom gfuel rfuel n true logN base p d) with
            | none => simp only [hss] at h; exact absurd h (by simp)
            | some ss =>
              simp only [hss] at h
              cases hse : shuffle_each
                  (fun p d =>
                    seq_shuffle stream binom gfuel rfuel n true logN base p d)
                  ss.2 ss.1 with
              | none => simp only [hse] at h; exact absurd h (by simp)
              | some fin =>
                simp only [hse, Option.some.injEq, Prod.mk.injEq] at h
                obtain ⟨hout, _⟩ := h
                subst hout
                have hrec : ∀ (p : Nat) (d : List a) (r : List a × Nat),
                    seq_shuffle stream binom gfuel rfuel n true logN base p d =
                      some r → (↑r.1 : Multiset a) = ↑d := by
                  intro p d r hcall
                  exact ih true logN base p d r.1 r.2 (by
                    cases r
                    exact hcall)
                have h1 := (rough_shuffle_perm logN stream (data.length + 1)
                  pos _ rs.1 rs.2 (by cases rs; exact hr)).1
                have h2 := (move_buckets_perm rs.1 bs2 _ hmv).1
                have h3 := shuffle_stashes_perm stream gfuel rfuel rs.2 bs2 _
                  hrec ss.1 ss.2 (by cases ss; exact hss)
                have h4 := shuffle_each_perm _ hrec ss.1 ss.2 fin hse
                have h0 : buckets_data (split_slice_into_equally_sized_buckets
                    (2 ^ logN) data) = data :=
                  split_buckets_data _ data
                    (Nat.pos_pow_of_pos logN (by norm_num))
                calc (↑(buckets_data fin.1) : Multiset a)
                    = ↑(buckets_data ss.1) := h4
                  _ = ↑(buckets_data bs2) := h3
                  _ = ↑(buckets_data rs.1) := h2
                  _ = ↑(buckets_data (split_slice_into_equally_sized_buckets
                      (2 ^ logN) data)) := h1
                  _ = ↑data := by rw [h0]

/-- C1: for every input array, every random stream, every binomial oracle
and every configuration, whenever the sequential shuffle
(`seq_shuffle`, covering both the `shuffle` and `shuffle_adaptive` entry
points of `SeqScatterShuffleImpl`, Fisher-Yates base case included)
returns, the multiset of elements in the array equals the input multiset:
no element is added, removed, or modified, so sorting the output yields the
same sequence as sorting the input. -/
theorem seq_shuffle_preserves_multiset {a : Type} (stream : Nat → Nat)
    (binom : Nat → Nat → Nat) (gfuel rfuel fuel : Nat) (adaptive : Bool)
    (logN base pos : Nat) (data out : List a) (pos' : Nat)
    (h : seq_shuffle stream binom gfuel rfuel fuel adaptive logN base pos
      data = some (out, pos')) :
    (↑out : Multiset a) = ↑data :=
  seq_shuffle_perm_aux stream binom gfuel rfuel fuel adaptive logN base pos
    data out pos' h

/-- Modelled from the spec, section 4.6: the sequential driver's pseudocode
runs, after the rough shuffle, first `shuffle_stashes` (step 1 of section
4.5), then the multinomial target draw (step 2), then the reshape (step 3),
and only then recurses on the buckets.  This definition follows the spec's
words; it is the comparison point for the order the code actually uses. -/
def shuffle_spec_order {a : Type} (stream : Nat → Nat)
    (binom : Nat → Nat → Nat) (gfuel rfuel fuel logN base pos : Nat)
    (data : List a) : Option (List a × Nat) :=
  if data.length ≤ base then fisher_yates stream pos data gfuel
  else
    let bs := split_slice_into_equally_sized_buckets (2 ^ logN) data
    match rough_shuffle logN stream (data.length + 1) pos bs with
    | none => none
    | some rs =>
      let num_unprocessed := total_unprocessed rs.1
      match shuffle_stashes stream gfuel rfuel rs.2 rs.1
          (fun p d =>
            seq_shuffle stream binom gfuel rfuel fuel true logN base p d) with
      | none => none
      | some ss =>
        let target_lengths :=
          sample_final_bucket_size binom num_unprocessed ss.1
        match move_buckets_to_fit_target_len ss.1 target_lengths with
        | none => none
        | some bs2 =>
          match shuffle_each
              (fun p d =>
                seq_shuffle stream binom gfuel rfuel fuel true logN base p d)
              ss.2 bs2 with
          | none => none
          | some fin => some (buckets_data fin.1, fin.2)

/-- Witness for `seq_shuffle_preserves_multiset`: a concrete successful
run of the sequential shuffle on `[0,1,2,3,4,5,6]`. -/
theorem seq_shuffle_preserves_multiset_witness :
    (↑([3, 4, 1, 5, 2, 6, 0] : List Nat) : Multiset Nat) =
      ↑([0, 1, 2, 3, 4, 5, 6] : List Nat) :=
  seq_shuffle_preserves_multiset
    (fun i => if i = 0 then 14 else 2 ^ 31 + 1) (fun n _ => n) 4 6 4 false 1 6
    0 [0, 1, 2, 3, 4, 5, 6] [3, 4, 1, 5, 2, 6, 0] 10 (by decide)

/-- C2 counterexample: the claim's phase order (stash shuffle first, then
multinomial draw, then reshape, then recursion) does not describe the
code: at a concrete input the driver's result differs from the
spec-ordered pipeline run with the same random stream and binomial
oracle. -/
theorem seq_shuffle_order_differs_from_spec :
    seq_shuffle (a := Nat) (fun i => if i = 0 then 14 else 2 ^ 31 + 1)
      (fun n _ => n) 4 6 4 false 1 6 0 [0, 1, 2, 3, 4, 5, 6] ≠
    shuffle_spec_order (fun i => if i = 0 then 14 else 2 ^ 31 + 1)
      (fun n _ => n) 4 6 3 1 6 0 [0, 1, 2, 3, 4, 5, 6] := by
  decide

/-- C2 (amended): in the sequential ScatterShuffle driver, for every input
longer than the base-case size, the phases after the rough shuffle run in
this order: first the multinomial target lengths are drawn, then the bucket
boundaries are reshaped to the target lengths, then the combined stashes
are shuffled, and only then does the driver recurse on each bucket. -/
theorem seq_shuffle_code_order {a : Type} (stream : Nat → Nat)
    (binom : Nat → Nat → Nat) (gfuel rfuel fuel logN base pos : Nat)
    (data : List a) (h : base < data.length) :
    seq_shuffle stream binom gfuel rfuel (fuel + 1) false logN base pos
      data =
      (match rough_shuffle logN stream (data.length + 1) pos
          (split_slice_into_equally_sized_buckets (2 ^ logN) data) with
       | none => none
       | some rs =>
         match move_buckets_to_fit_target_len rs.1
             (sample_final_bucket_size binom (total_unprocessed rs.1)
               rs.1) with
         | none => none
         | some bs2 =>
           match shuffle_stashes stream gfuel rfuel rs.2 bs2
               (fun p d => seq_shuffle stream binom gfuel rfuel fuel true
                 logN base p d) with
           | none => none
           | some ss =>
             match shuffle_each
                 (fun p d => seq_shuffle stream binom gfuel rfuel fuel true
                   logN base p d) ss.2 ss.1 with
             | none => none
             | some fin => some (buckets_data fin.1, fin.2)) := by
  simp only [seq_shuffle, if_neg (Nat.not_le.mpr h)]

/-- Witness for `seq_shuffle_code_order` at a concrete instance. -/
theorem seq_shuffle_code_order_witness :
    6 < ([0, 1, 2, 3, 4, 5, 6] : List Nat).length ∧
    seq_shuffle (a := Nat) (fun i => if i = 0 then 14 else 2 ^ 31 + 1)
      (fun n _ => n) 4 6 (3 + 1) false 1 6 0 [0, 1, 2, 3, 4, 5, 6] =
      (match rough_shuffle 1 (fun i => if i = 0 then 14 else 2 ^ 31 + 1)
          (([0, 1, 2, 3, 4, 5, 6] : List Nat).length + 1) 0
          (split_slice_into_equally_sized_buckets (2 ^ 1)
            ([0, 1, 2, 3, 4, 5, 6] : List Nat)) with
       | none => none
       | some rs =>
         match move_buckets_to_fit_target_len rs.1
             (sample_final_bucket_size (fun n _ => n)
               (total_unprocessed rs.1) rs.1) with
         | none => none
         | some bs2 =>
           match shuffle_stashes (fun i => if i = 0 then 14 else 2 ^ 31 + 1)
               4 6 rs.2 bs2
               (fun p d => seq_shuffle
                 (fun i => if i = 0 then 14 else 2 ^ 31 + 1)
                 (fun n _ => n) 4 6 3 true 1 6 p d) with
           | none => none
           | some ss =>
             match shuffle_each
                 (fun p d => seq_shuffle
                   (fun i => if i = 0 then 14 else 2 ^ 31 + 1)
                   (fun n _ => n) 4 6 3 true 1 6 p d) ss.2 ss.1 with
             | none => none
             | some fin => some (buckets_data fin.1, fin.2)) :=
  ⟨by decide,
    seq_shuffle_code_order (fun i => if i = 0 then 14 else 2 ^ 31 + 1)
      (fun n _ => n) 4 6 3 1 6 0 [0, 1, 2, 3, 4, 5, 6] (by decide)⟩

/-- C4: for every exclusive upper bound `ub >= 1` and every random stream,
whenever the public `gen_index` returns it yields a value in `[0, ub)`;
and Lemire's fast path holds at the dispatched width `w`: when the widening
product of the fresh word with `ub` has `lo >= ub`, the call returns `hi`
immediately, consuming exactly one word (otherwise the code computes
`t = (-ub) mod ub` once and redraws until `lo >= t` — the rejection loop of
`gen_index_loop`, whose successful results the first conjunct also
covers). -/
theorem gen_index_in_range (stream : Nat → Nat) (pos ub fuel : Nat)
    (hub : 1 ≤ ub) :
    (∀ v pos', gen_index stream pos ub fuel = some (v, pos') → v < ub) ∧
    (ub ≤ (wide_multiply (gen_index_width ub)
        (stream pos % 2 ^ gen_index_width ub) ub).1 →
      gen_index stream pos ub fuel =
        some ((wide_multiply (gen_index_width ub)
          (stream pos % 2 ^ gen_index_width ub) ub).2, pos + 1)) := by
  unfold gen_index
  exact gen_index_w_in_range (gen_index_width ub) stream pos ub fuel hub

/-- Witness for `gen_index_in_range` at `ub = 7`, the all-zero stream. -/
theorem gen_index_in_range_witness :
    (1 ≤ 7) ∧
      (∀ v pos', gen_index (fun _ => 0) 0 7 3 = some (v, pos') → v < 7) :=
  ⟨by decide, (gen_index_in_range (fun _ => 0) 0 7 3 (by decide)).1⟩

/-- C5: for every bucket set, with `num_unprocessed` equal to the total
stash size, `sample_final_bucket_size` returns target lengths that sum
exactly to the total length of all buckets, and each bucket's target is at
least its current `num_processed`.  The external `rand_distr` binomial
sampler is an oracle assumed to return at most its ball count and all
balls when only one bin remains (`Binomial(n, 1)` = `n`). -/
theorem sample_final_bucket_size_spec {a : Type} (binom : Nat → Nat → Nat)
    (buckets : List (Bucket a))
    (hwf : ∀ b ∈ buckets, b.num_processed ≤ b.len)
    (hle : ∀ n k, binom n k ≤ n) (h1 : ∀ n, binom n 1 = n) :
    (sample_final_bucket_size binom (total_unprocessed buckets)
        buckets).sum = total_len buckets ∧
    List.Forall₂ (fun (b : Bucket a) t => b.num_processed ≤ t) buckets
      (sample_final_bucket_size binom (total_unprocessed buckets) buckets) := by
  constructor
  · -- the targets sum to the total length
    have key : ∀ (bs : List (Bucket a)) (draws : List Nat),
        bs.length = draws.length →
        (List.zipWith (fun (b : Bucket a) x => b.num_processed + x) bs
          draws).sum = (bs.map Bucket.num_processed).sum + draws.sum := by
      intro bs
      induction bs with
      | nil => intro draws h; cases draws with
        | nil => simp
        | cons d ds => simp at h
      | cons b rest ih =>
        intro draws h
        cases draws with
        | nil => simp at h
        | cons d ds =>
          simp only [List.zipWith_cons_cons, List.sum_cons, List.map_cons]
          rw [ih ds (by simpa using h)]
          omega
    unfold sample_final_bucket_size
    rw [key buckets _ (by rw [multinomial_length])]
    by_cases hb : buckets.length = 0
    · rw [List.length_eq_zero] at hb
      subst hb
      simp [total_unprocessed, total_len, multinomial]
    · rw [multinomial_sum binom hle h1 _ _ (by omega)]
      unfold total_unprocessed total_len
      have : ∀ (bs : List (Bucket a)), (∀ b ∈ bs, b.num_processed ≤ b.len) →
          (bs.map Bucket.num_processed).sum +
            (bs.map Bucket.num_unprocessed).sum = (bs.map Bucket.len).sum := by
        intro bs
        induction bs with
        | nil => intro _; simp
        | cons b rest ih =>
          intro hw
          simp only [List.map_cons, List.sum_cons]
          have hb' := hw b (List.mem_cons_self _ _)
          have := ih (fun x hx => hw x (List.mem_cons_of_mem _ hx))
          unfold Bucket.num_unprocessed
          unfold Bucket.num_unprocessed at this
          omega
      exact this buckets hwf
  · -- each target dominates the bucket's processed count
    unfold sample_final_bucket_size
    have : ∀ (bs : List (Bucket a)) (draws : List Nat),
        bs.length = draws.length →
        List.Forall₂ (fun (b : Bucket a) t => b.num_processed ≤ t) bs
          (List.zipWith (fun (b : Bucket a) x => b.num_processed + x) bs
            draws) := by
      intro bs
      induction bs with
      | nil => intro draws h; cases draws with
        | nil => simp
        | cons d ds => simp at h
      | cons b rest ih =>
        intro draws h
        cases draws with
        | nil => simp at h
        | cons d ds =>
          simp only [List.zipWith_cons_cons]
          exact List.Forall₂.cons (by omega) (ih ds (by simpa using h))
    exact this buckets _ (by rw [multinomial_length])

/-- Witness for `sample_final_bucket_size_spec`: two concrete buckets and
the oracle `binom n k = n / k`. -/
theorem sample_final_bucket_size_spec_witness :
    ((∀ b ∈ ([⟨[0, 1, 2], 1⟩, ⟨[3, 4], 1⟩] : List (Bucket Nat)),
        b.num_processed ≤ b.len) ∧
      (∀ n k : Nat, n / k ≤ n) ∧ (∀ n : Nat, n / 1 = n)) ∧
    (sample_final_bucket_size (fun n k => n / k)
        (total_unprocessed ([⟨[0, 1, 2], 1⟩, ⟨[3, 4], 1⟩] : List (Bucket Nat)))
        [⟨[0, 1, 2], 1⟩, ⟨[3, 4], 1⟩]).sum =
      total_len ([⟨[0, 1, 2], 1⟩, ⟨[3, 4], 1⟩] : List (Bucket Nat)) ∧
    List.Forall₂ (fun (b : Bucket Nat) t => b.num_processed ≤ t)
      [⟨[0, 1, 2], 1⟩, ⟨[3, 4], 1⟩]
      (sample_final_bucket_size (fun n k => n / k)
        (total_unprocessed ([⟨[0, 1, 2], 1⟩, ⟨[3, 4], 1⟩] : List (Bucket Nat)))
        [⟨[0, 1, 2], 1⟩, ⟨[3, 4], 1⟩]) :=
  ⟨⟨by decide, fun n k => Nat.div_le_self n k, fun n => Nat.div_one n⟩,
    sample_final_bucket_size_spec (fun n k => n / k)
      [⟨[0, 1, 2], 1⟩, ⟨[3, 4], 1⟩] (by decide)
      (fun n k => Nat.div_le_self n k) (fun n => Nat.div_one n)⟩

/-! ## Accelerated rough shuffle (src/rough_shuffle/with_unsafe_algos.rs).
Bucket base pointers are absolute indices into the parent array; bucket `i`
spans `[starts[i], starts[i] + lens[i])`.  The two-slot stash is modelled by
the value in its current read slot: each unrolled pair of swaps writes the
other lane and reads it back within the same iteration, so the write lane
never carries a value across iterations. -/

/-- `BlockBasePointers::fetch_and_increment`: return the pointer, then
advance it. -/
def fetch_and_increment (ptrs : List Nat) (idx : Nat) : Nat × List Nat :=
  (ptrs.getD idx 0, ptrs.set idx (ptrs.getD idx 0 + 1))

/-- `BlockBasePointers::fetch_and_decrement`: return the pointer, then
move it back. -/
def fetch_and_decrement (ptrs : List Nat) (idx : Nat) : Nat × List Nat :=
  (ptrs.getD idx 0, ptrs.set idx (ptrs.getD idx 0 - 1))

/-- One prefetch batch: extract `rem` destination indices of `logN` bits
each from the random word (lane `k` uses bits `[k*logN, (k+1)*logN)`) and
fetch-and-increment each destination's base pointer, collecting the
fetched (pre-increment) pointers. -/
def prefetch_go (logN rand : Nat) : Nat → Nat → List Nat → List Nat × List Nat
  | _, 0, ptrs => ([], ptrs)
  | k, rem + 1, ptrs =>
    let mask := 2 ^ logN - 1
    let index := (rand >>> (k * logN)) % (mask + 1)
    let f := fetch_and_increment ptrs index
    let rest := prefetch_go logN rand (k + 1) rem f.2
    (f.1 :: rest.1, rest.2)

/-- `RoughShuffle::prefetch` for a batch of `S` swaps. -/
def prefetch_batch (logN S rand : Nat) (ptrs : List Nat) :
    List Nat × List Nat :=
  prefetch_go logN rand 0 S ptrs

/-- The interleaved swap loop of one round: for each lane `k`,
`swap_assume_read_from::<0>` with the first batch's pointer and
`swap_assume_read_from::<1>` with the second batch's; `s0` is the element
in the stash's current read slot.  Out-of-array pointer dereferences
return `none`. -/
def swaps_go {a : Type} :
    List Nat → List Nat → List a → a → Option (List a × a)
  | [], _, arr, s0 => some (arr, s0)
  | _ :: _, [], arr, s0 => some (arr, s0)
  | p0 :: t0, p1 :: t1, arr, s0 =>
    match arr[p0]? with
    | none => none
    | some e0 =>
      let arr1 := arr.set p0 s0
      match arr1[p1]? with
      | none => none
      | some e1 =>
        swaps_go t0 t1 (arr1.set p1 e0) e1

/-- The `for _ in 0..rounds` loop: two prefetch batches (one fresh 64-bit
word each) followed by the interleaved swaps. -/
def unsafe_rounds {a : Type} (logN S : Nat) (stream : Nat → Nat) :
    Nat → Nat → List a → List Nat → a →
      Option (Nat × List a × List Nat × a)
  | 0, pos, arr, ptrs, s0 => some (pos, arr, ptrs, s0)
  | r + 1, pos, arr, ptrs, s0 =>
    let b0 := prefetch_batch logN S (stream pos % 2 ^ 64) ptrs
    let b1 := prefetch_batch logN S (stream (pos + 1) % 2 ^ 64) b0.2
    match swaps_go b0.1 b1.1 arr s0 with
    | none => none
    | some w => unsafe_rounds logN S stream r (pos + 2) w.1 b1.2 w.2

/-- Bootstrap (seed the stash from `base[0]`, advancing it) followed by the
rounds loop.  Returns the position, array, pointers, stash element and the
seed pointer. -/
def bootstrap_and_rounds {a : Type} (logN S : Nat) (stream : Nat → Nat)
    (rounds pos : Nat) (arr : List a) (ptrs : List Nat) :
    Option (Nat × List a × List Nat × a × Nat) :=
  let f := fetch_and_increment ptrs 0
  match arr[f.1]? with
  | none => none
  | some seed_elem =>
    match unsafe_rounds logN S stream rounds pos arr f.2 seed_elem with
    | none => none
    | some w => some (w.1, w.2.1, w.2.2.1, w.2.2.2, f.1)

/-- The drain: fetch-and-decrement `base[0]`, copy the element there back
over the seed slot, and deposit the stash element at the fetched slot. -/
def unsafe_drain {a : Type} (arr : List a) (ptrs : List Nat) (stash : a)
    (seed_ptr : Nat) : Option (List a × List Nat) :=
  let f := fetch_and_decrement ptrs 0
  match arr[f.1]? with
  | none => none
  | some w => some ((arr.set seed_ptr w).set f.1 stash, f.2)

/-- `BlockBasePointers::synchronize_buckets`: write each pointer offset
back as `num_processed` (the `assert!(num_processed <= bucket.len())` and
the implicit requirement that the pointer is not before its bucket are the
guards) and fold the new shortest unprocessed length into the cached one. -/
def synchronize_buckets (starts lens ptrs : List Nat) (shortest : Nat) :
    Option (List Nat × Nat) :=
  match starts, lens, ptrs with
  | [], [], [] => some ([], shortest)
  | s :: ss, l :: ls, p :: ps =>
    if s ≤ p ∧ p - s ≤ l then
      match synchronize_buckets ss ls ps (min shortest (l - (p - s))) with
      | none => none
      | some r => some ((p - s) :: r.1, r.2)
    else none
  | _, _, _ => none

/-- The outer loop of `RoughShuffle::rough_shuffle`: plan
`rounds = shortest / 2 / SWAPS`, stop when `rounds <= 1`, otherwise run
bootstrap, the rounds, the drain and the reconciliation. -/
def rough_shuffle_unsafe_loop {a : Type} (logN S : Nat) (stream : Nat → Nat)
    (starts lens : List Nat) :
    Nat → Nat → List a → List Nat → Nat →
      Option (Nat × List a × List Nat × Nat)
  | 0, _, _, _, _ => none
  | fuel + 1, pos, arr, ptrs, shortest =>
    let rounds := shortest / 2 / S
    if rounds ≤ 1 then some (pos, arr, ptrs, shortest)
    else
      match bootstrap_and_rounds logN S stream rounds pos arr ptrs with
      | none => none
      | some w =>
        match unsafe_drain w.2.1 w.2.2.1 w.2.2.2.1 w.2.2.2.2 with
        | none => none
        | some d =>
          match synchronize_buckets starts lens d.2 shortest with
          | none => none
          | some sync =>
            rough_shuffle_unsafe_loop logN S stream starts lens fuel w.1
              d.1 d.2 sync.2

set_option maxRecDepth 100000

set_option maxHeartbeats 4000000

/-- C3 (code evaluated at the failing input): two buckets of 256
unprocessed elements each (`logN = 1`, the entry point's
`SWAPS_PER_ROUND = 64/1 = 64`), so `min_stash = 256` and the planner runs
`rounds = 256/2/64 = 2`, i.e. `2*64*2 = 256` swaps.  Against the all-zero
random stream every destination index is bucket 0, so bucket 0's base
pointer is incremented `257` times (bootstrap included): after the rounds
loop it stands at `257`, past bucket 0's end `256` (one slot beyond the
one-past-the-end position), and the final swap wrote to slot `256` — the
first slot of bucket 1, whose own base pointer also still points there. -/
theorem unsafe_rough_shuffle_pointer_overshoot :
    ((bootstrap_and_rounds 1 64 (fun _ => 0) 2 0 (List.range 512)
        [0, 256]).map (fun w => w.2.2.1)) = some [257, 256] ∧
    ((bootstrap_and_rounds 1 64 (fun _ => 0) 2 0 (List.range 512)
        [0, 256]).map (fun w => w.2.1.getD 256 999)) = some 192 := by
  constructor
  · decide
  · decide

/-- C8 (code evaluated at the failing input): on ranges `[[10],[20,30]]`
with the constant random stream `2^31` (so every `gen_index` draw
returns 1 for `ub = 2` and 0 for `ub = 1`), while placing position
`(range 1, offset 0)` — position 1 of the concatenation — the rejection
loop accepts the partner `(range 1, offset 1)`, i.e. position 2, which
lies strictly AFTER the position being placed: the acceptance test only
checks `j < ranges[j_range].len()`, not that the partner is at or before
`i` in concatenation order.  The full run consequently swaps the
already-placed last element again, returning `[[10],[30,20]]`. -/
theorem ncfy_partner_after_current_position :
    ncfy_pick (fun _ => 2 ^ 31) ([[10], [20, 30]] : List (List Nat))
        1 0 2 1 2 3 4 = some ((1, 1), 2, 0, 4) ∧
    noncontiguous_fisher_yates (fun _ => 2 ^ 31) 0
        ([[10], [20, 30]] : List (List Nat)) 3 4 =
      some ([[10], [30, 20]], 4) := by
  constructor
  · decide
  · decide

/-! ## Stash compaction: totality, placement and the involution (C10) -/

theorem compact_go_frame {a : Type} :
    ∀ (ds : List (Bucket a)) (A B B' : List a)
      (res : List (Bucket a) × List a),
      B'.length = B.length →
      compact_go ds (A ++ B) B.length = some res →
      ∃ A2, res.2 = A2 ++ B ∧ A2.length = A.length ∧
        compact_go ds (A ++ B') B.length = some (res.1, A2 ++ B') := by
  intro ds
  induction ds with
  | nil =>
    intro A B B' res hB' h
    simp only [compact_go, Option.some.injEq] at h
    subst h
    exact ⟨A, rfl, rfl, rfl⟩
  | cons d rest ih =>
    intro A B B' res hB' h
    simp only [compact_go] at h ⊢
    split at h
    case isTrue h0 =>
      cases hrec : compact_go rest (A ++ B) B.length with
      | none => rw [hrec] at h; simp at h
      | some p =>
        rw [hrec] at h
        simp only [Option.some.injEq] at h
        subst h
        obtain ⟨A2, hC, hlen, hrun⟩ := ih A B B' p hB' hrec
        rw [if_pos h0, hrun]
        exact ⟨A2, hC, hlen, rfl⟩
    case isFalse h0 =>
      split at h
      case isFalse => simp at h
      case isTrue hg =>
        have hta : d.num_unprocessed ≤ A.length := by
          simp only [List.length_append] at hg
          omega
        have e1 : (A ++ B).length - B.length - d.num_unprocessed =
            A.length - d.num_unprocessed := by
          simp only [List.length_append]
          omega
        have e1' : (A ++ B').length - B.length - d.num_unprocessed =
            A.length - d.num_unprocessed := by
          simp only [List.length_append, hB']
          omega
        have e2 : (A ++ B).length - B.length = A.length := by
          simp only [List.length_append]
          omega
        have e2' : (A ++ B').length - B.length = A.length := by
          simp only [List.length_append, hB']
          omega
        have r1 : (A ++ B).drop (A.length - d.num_unprocessed) =
            A.drop (A.length - d.num_unprocessed) ++ B :=
          List.drop_append_of_le_length (by omega)
        have r1' : (A ++ B').drop (A.length - d.num_unprocessed) =
            A.drop (A.length - d.num_unprocessed) ++ B' :=
          List.drop_append_of_le_length (by omega)
        have hsl : (A.drop (A.length - d.num_unprocessed)).length =
            d.num_unprocessed := by
          rw [List.length_drop]
          omega
        have r2 : (A.drop (A.length - d.num_unprocessed) ++ B).take
            d.num_unprocessed = A.drop (A.length - d.num_unprocessed) := by
          rw [List.take_append_of_le_length (le_of_eq hsl.symm),
            List.take_of_length_le (le_of_eq hsl)]
        have r2' : (A.drop (A.length - d.num_unprocessed) ++ B').take
            d.num_unprocessed = A.drop (A.length - d.num_unprocessed) := by
          rw [List.take_append_of_le_length (le_of_eq hsl.symm),
            List.take_of_length_le (le_of_eq hsl)]
        have r3 : (A ++ B).take (A.length - d.num_unprocessed) =
            A.take (A.length - d.num_unprocessed) :=
          List.take_append_of_le_length (by omega)
        have r3' : (A ++ B').take (A.length - d.num_unprocessed) =
            A.take (A.length - d.num_unprocessed) :=
          List.take_append_of_le_length (by omega)
        have r4 : (A ++ B).drop A.length = B := List.drop_left A B
        have r4' : (A ++ B').drop A.length = B' := List.drop_left A B'
        rw [e1, e2, r1, r2, r3, r4] at h
        have hY : (d.data.drop d.num_processed ++ B).length =
            B.length + d.num_unprocessed := by
          simp only [List.length_append, List.length_drop,
            Bucket.num_unprocessed, Bucket.len]
          omega
        have hY' : (d.data.drop d.num_processed ++ B').length =
            B.length + d.num_unprocessed := by
          simp only [List.length_append, List.length_drop, hB',
            Bucket.num_unprocessed, Bucket.len]
          omega
        cases hrec : compact_go rest
            (A.take (A.length - d.num_unprocessed) ++
              d.data.drop d.num_processed ++ B)
            (B.length + d.num_unprocessed) with
        | none => rw [hrec] at h; simp at h
        | some p =>
          rw [hrec] at h
          simp only [Option.some.injEq] at h
          subst h
          rw [List.append_assoc, ← hY] at hrec
          obtain ⟨A2, hC, hlenA2, hrun⟩ := ih
            (A.take (A.length - d.num_unprocessed))
            (d.data.drop d.num_processed ++ B)
            (d.data.drop d.num_processed ++ B') p
            (by simp [hB']) hrec
          have hg' : B.length + d.num_unprocessed ≤ (A ++ B').length := by
            simp only [List.length_append, hB']
            simp only [List.length_append] at hg
            omega
          refine ⟨A2 ++ d.data.drop d.num_processed, ?_, ?_, ?_⟩
          · rw [hC, List.append_assoc]
          · have hA2 : A2.length = A.length - d.num_unprocessed := by
              rw [hlenA2, List.length_take]
              omega
            have h0' : d.num_unprocessed ≠ 0 := h0
            simp only [List.length_append, hA2, List.length_drop]
            unfold Bucket.num_unprocessed Bucket.len at h0' hta ⊢
            omega
          · rw [if_neg h0, if_pos hg']
            rw [e1', e2', r1', r2', r3', r4']
            rw [List.append_assoc, ← hY]
            rw [hY, ← hY'] at hrun
            rw [hY, ← hY']
            rw [hrun]
            dsimp only
            rw [List.append_assoc]

theorem compact_go_invol {a : Type} :
    ∀ (ds : List (Bucket a)) (A B : List a)
      (res : List (Bucket a) × List a),
      compact_go ds (A ++ B) B.length = some res →
      compact_go res.1 res.2 B.length = some (ds, A ++ B) := by
  intro ds
  induction ds with
  | nil =>
    intro A B res h
    simp only [compact_go, Option.some.injEq] at h
    subst h
    rfl
  | cons d rest ih =>
    intro A B res h
    simp only [compact_go] at h
    split at h
    case isTrue h0 =>
      cases hrec : compact_go rest (A ++ B) B.length with
      | none => rw [hrec] at h; simp at h
      | some p =>
        rw [hrec] at h
        simp only [Option.some.injEq] at h
        subst h
        have ih' := ih A B p hrec
        simp only [compact_go, if_pos h0]
        rw [ih']
    case isFalse h0 =>
      split at h
      case isFalse => simp at h
      case isTrue hg =>
        have hta : d.num_unprocessed ≤ A.length := by
          simp only [List.length_append] at hg
          omega
        have hnp : d.num_processed < d.data.length := by
          have h0' : d.num_unprocessed ≠ 0 := h0
          unfold Bucket.num_unprocessed Bucket.len at h0'
          omega
        have e1 : (A ++ B).length - B.length - d.num_unprocessed =
            A.length - d.num_unprocessed := by
          simp only [List.length_append]
          omega
        have e2 : (A ++ B).length - B.length = A.length := by
          simp only [List.length_append]
          omega
        have r1 : (A ++ B).drop (A.length - d.num_unprocessed) =
            A.drop (A.length - d.num_unprocessed) ++ B :=
          List.drop_append_of_le_length (by omega)
        have hsl : (A.drop (A.length - d.num_unprocessed)).length =
            d.num_unprocessed := by
          rw [List.length_drop]
          omega
        have r2 : (A.drop (A.length - d.num_unprocessed) ++ B).take
            d.num_unprocessed = A.drop (A.length - d.num_unprocessed) := by
          rw [List.take_append_of_le_length (le_of_eq hsl.symm),
            List.take_of_length_le (le_of_eq hsl)]
        have r3 : (A ++ B).take (A.length - d.num_unprocessed) =
            A.take (A.length - d.num_unprocessed) :=
          List.take_append_of_le_length (by omega)
        have r4 : (A ++ B).drop A.length = B := List.drop_left A B
        rw [e1, e2, r1, r2, r3, r4] at h
        have hY : (d.data.drop d.num_processed ++ B).length =
            B.length + d.num_unprocessed := by
          simp only [List.length_append, List.length_drop,
            Bucket.num_unprocessed, Bucket.len]
          omega
        cases hrec : compact_go rest
            (A.take (A.length - d.num_unprocessed) ++
              d.data.drop d.num_processed ++ B)
            (B.length + d.num_unprocessed) with
        | none => rw [hrec] at h; simp at h
        | some p =>
          rw [hrec] at h
          simp only [Option.some.injEq] at h
          subst h
          rw [List.append_assoc, ← hY] at hrec
          obtain ⟨A2, hC, hlenA2, _⟩ := compact_go_frame rest
            (A.take (A.length - d.num_unprocessed))
            (d.data.drop d.num_processed ++ B)
            (d.data.drop d.num_processed ++ B) p rfl hrec
          have ih' := ih (A.take (A.length - d.num_unprocessed))
            (d.data.drop d.num_processed ++ B) p hrec
          have f1 : (d.data.take d.num_processed).length =
              d.num_processed := by
            rw [List.length_take]
            omega
          have hDlen : (d.data.drop d.num_processed).length =
              d.num_unprocessed := by
            rw [List.length_drop]
            rfl
          have hnu' : (⟨d.data.take d.num_processed ++
              A.drop (A.length - d.num_unprocessed),
              d.num_processed⟩ : Bucket a).num_unprocessed =
              d.num_unprocessed := by
            show (d.data.take d.num_processed ++
              A.drop (A.length - d.num_unprocessed)).length -
              d.num_processed = d.num_unprocessed
            rw [List.length_append, f1, hsl]
            omega
          have h0'' : ¬((⟨d.data.take d.num_processed ++
              A.drop (A.length - d.num_unprocessed),
              d.num_processed⟩ : Bucket a).num_unprocessed = 0) := by
            rw [hnu']
            exact h0
          dsimp only
          simp only [compact_go]
          rw [if_neg h0'', hnu']
          have hg2 : B.length + d.num_unprocessed ≤ p.2.length := by
            rw [hC]
            simp only [List.length_append, hDlen]
            omega
          rw [if_pos hg2]
          rw [hC]
          have t1 : (A2 ++ (d.data.drop d.num_processed ++ B)).length -
              B.length - d.num_unprocessed = A2.length := by
            simp only [List.length_append, hDlen]
            omega
          have t2 : (A2 ++ (d.data.drop d.num_processed ++ B)).length -
              B.length = A2.length + d.num_unprocessed := by
            simp only [List.length_append, hDlen]
            omega
          rw [t1, t2]
          rw [List.drop_left A2 (d.data.drop d.num_processed ++ B)]
          rw [List.take_append_of_le_length (le_of_eq hDlen.symm),
            List.take_of_length_le (le_of_eq hDlen)]
          rw [List.take_left A2 (d.data.drop d.num_processed ++ B)]
          have s3 : (A2 ++ (d.data.drop d.num_processed ++ B)).drop
              (A2.length + d.num_unprocessed) = B := by
            rw [← List.append_assoc]
            exact List.drop_left' (by simp only [List.length_append, hDlen])
          rw [s3]
          rw [List.drop_left' f1]
          have u2 : (d.data.take d.num_processed ++
              A.drop (A.length - d.num_unprocessed)).take
              d.num_processed = d.data.take d.num_processed := by
            rw [List.take_append_of_le_length (le_of_eq f1.symm),
              List.take_of_length_le (le_of_eq f1)]
          rw [u2]
          rw [hC] at ih'
          obtain ⟨A3, hXY, hA3, hrun2⟩ := compact_go_frame p.1 A2
            (d.data.drop d.num_processed ++ B)
            (A.drop (A.length - d.num_unprocessed) ++ B)
            (rest, A.take (A.length - d.num_unprocessed) ++
              (d.data.drop d.num_processed ++ B))
            (by simp only [List.length_append, hDlen, hsl]) ih'
          have hA3X : A3 = A.take (A.length - d.num_unprocessed) := by
            have := hXY
            dsimp only at this
            exact ((List.append_left_inj _).1 this.symm)
          rw [hA3X] at hrun2
          dsimp only at hrun2
          rw [hY] at hrun2
          rw [List.append_assoc]
          rw [hrun2]
          dsimp only
          rw [List.take_append_drop]
          rw [← List.append_assoc, List.take_append_drop]

theorem compact_go_total_place {a : Type} :
    ∀ (ds : List (Bucket a)) (acc : List a) (na : Nat),
      na + (ds.map Bucket.num_unprocessed).sum ≤ acc.length →
      ∃ res, compact_go ds acc na = some res ∧
        res.2.length = acc.length ∧
        res.2.drop (acc.length -
            (na + (ds.map Bucket.num_unprocessed).sum)) =
          (ds.reverse.map Bucket.data_unprocessed).flatten ++
            acc.drop (acc.length - na) := by
  intro ds
  induction ds with
  | nil =>
    intro acc na _
    refine ⟨([], acc), rfl, rfl, ?_⟩
    simp
  | cons d rest ih =>
    intro acc na hsum
    simp only [List.map_cons, List.sum_cons] at hsum
    by_cases h0 : d.num_unprocessed = 0
    · have hstash : d.data_unprocessed = [] := by
        unfold Bucket.data_unprocessed
        apply List.drop_eq_nil_of_le
        unfold Bucket.num_unprocessed Bucket.len at h0
        omega
      obtain ⟨p, hp, hlen, hdrop⟩ := ih acc na (by omega)
      refine ⟨(d :: p.1, p.2), ?_, hlen, ?_⟩
      · simp only [compact_go, if_pos h0, hp]
      · simp only [List.map_cons, List.sum_cons, h0, Nat.zero_add]
        rw [hdrop]
        simp only [List.reverse_cons, List.map_append, List.map_cons,
          List.map_nil, List.flatten_append, List.flatten_cons,
          List.flatten_nil, List.append_nil, hstash]
    · have hnp : d.num_processed < d.data.length := by
        unfold Bucket.num_unprocessed Bucket.len at h0
        omega
      have hg : na + d.num_unprocessed ≤ acc.length := by omega
      have hDlen : (d.data.drop d.num_processed).length =
          d.num_unprocessed := by
        rw [List.length_drop]
        rfl
      have e1 : (acc.take (acc.length - na - d.num_unprocessed)).length =
          acc.length - na - d.num_unprocessed := by
        rw [List.length_take]
        omega
      have e3 : (acc.drop (acc.length - na)).length = na := by
        rw [List.length_drop]
        omega
      have hacc1 : (acc.take (acc.length - na - d.num_unprocessed) ++
          d.data.drop d.num_processed ++
          acc.drop (acc.length - na)).length = acc.length := by
        simp only [List.length_append, e1, e3, hDlen]
        omega
      obtain ⟨p, hp, hlen, hdrop⟩ := ih
        (acc.take (acc.length - na - d.num_unprocessed) ++
          d.data.drop d.num_processed ++ acc.drop (acc.length - na))
        (na + d.num_unprocessed) (by rw [hacc1]; omega)
      refine ⟨(⟨d.data.take d.num_processed ++
          (acc.drop (acc.length - na - d.num_unprocessed)).take
            d.num_unprocessed, d.num_processed⟩ :: p.1, p.2), ?_, ?_, ?_⟩
      · simp only [compact_go, if_neg h0, if_pos hg, hp]
      · rw [hlen, hacc1]
      · simp only [List.map_cons, List.sum_cons]
        rw [hacc1] at hdrop
        have i1 : acc.length - (na + d.num_unprocessed +
            (rest.map Bucket.num_unprocessed).sum) =
            acc.length - (na + (d.num_unprocessed +
              (rest.map Bucket.num_unprocessed).sum)) := by
          omega
        rw [← i1, hdrop]
        have i2 : (acc.take (acc.length - na - d.num_unprocessed) ++
            d.data.drop d.num_processed ++
            acc.drop (acc.length - na)).drop
            (acc.length - (na + d.num_unprocessed)) =
            d.data.drop d.num_processed ++ acc.drop (acc.length - na) := by
          rw [List.append_assoc]
          apply List.drop_left'
          rw [e1]
          omega
        rw [i2]
        simp only [List.reverse_cons, List.map_append, List.map_cons,
          List.map_nil, List.flatten_append, List.flatten_cons,
          List.flatten_nil, List.append_nil]
        rw [List.append_assoc]
        rfl

/-- C10: for every bucket set whose total stash size is at most the last
bucket's length (and a well-formed last bucket), `compact_ranges` succeeds;
running it a second time on the result maps every slot back to its original
place (the swaps are pairwise-disjoint transpositions, replayed identically
because every bucket's boundaries and `num_processed` are left unchanged);
and after one invocation all stash elements occupy exactly the final
stash-size slots of the last bucket, in bucket order. -/
theorem compact_ranges_roundtrip {a : Type} (bs : List (Bucket a))
    (last : Bucket a) (hlast : bs.getLast? = some last)
    (hwf : last.num_processed ≤ last.len)
    (hS : (bs.map Bucket.num_unprocessed).sum ≤ last.len) :
    ∃ bs', compact_ranges bs = some bs' ∧
      compact_ranges bs' = some bs ∧
      bs'.map Bucket.len = bs.map Bucket.len ∧
      bs'.map Bucket.num_processed = bs.map Bucket.num_processed ∧
      ∃ last2, bs'.getLast? = some last2 ∧
        last2.data.drop (last.len - (bs.map Bucket.num_unprocessed).sum) =
          (bs.map Bucket.data_unprocessed).flatten := by
  have hsplit : bs.dropLast ++ [last] = bs :=
    List.dropLast_append_getLast? last (by rw [hlast]; rfl)
  have hsum : (bs.map Bucket.num_unprocessed).sum =
      (bs.dropLast.map Bucket.num_unprocessed).sum +
        last.num_unprocessed := by
    conv_lhs => rw [← hsplit]
    simp
  have hds : (bs.dropLast.reverse.map Bucket.num_unprocessed).sum =
      (bs.dropLast.map Bucket.num_unprocessed).sum := by
    rw [List.map_reverse, List.sum_reverse]
  have hnu : last.num_unprocessed ≤ last.data.length := by
    unfold Bucket.num_unprocessed Bucket.len
    omega
  obtain ⟨p, hp, hplen, hpdrop⟩ := compact_go_total_place
    bs.dropLast.reverse last.data last.num_unprocessed
    (by rw [hds]; unfold Bucket.len at hS; omega)
  have hfirst : compact_ranges bs =
      some (p.1.reverse ++ [⟨p.2, last.num_processed⟩]) := by
    simp only [compact_ranges, hlast, hp]
  refine ⟨p.1.reverse ++ [⟨p.2, last.num_processed⟩], hfirst, ?_, ?_, ?_, ?_⟩
  · -- involution
    have hk : last.data.take (last.data.length - last.num_unprocessed) ++
        last.data.drop (last.data.length - last.num_unprocessed) =
        last.data := List.take_append_drop _ _
    have hkl : (last.data.drop
        (last.data.length - last.num_unprocessed)).length =
        last.num_unprocessed := by
      rw [List.length_drop]
      omega
    have hp2 : compact_go bs.dropLast.reverse
        (last.data.take (last.data.length - last.num_unprocessed) ++
          last.data.drop (last.data.length - last.num_unprocessed))
        (last.data.drop
          (last.data.length - last.num_unprocessed)).length = some p := by
      rw [hk, hkl]
      exact hp
    have hinv := compact_go_invol bs.dropLast.reverse
      (last.data.take (last.data.length - last.num_unprocessed))
      (last.data.drop (last.data.length - last.num_unprocessed)) p hp2
    rw [hk, hkl] at hinv
    have hnu2 : (⟨p.2, last.num_processed⟩ : Bucket a).num_unprocessed =
        last.num_unprocessed := by
      show p.2.length - last.num_processed = last.num_unprocessed
      rw [hplen]
      rfl
    simp only [compact_ranges, List.getLast?_concat, List.dropLast_concat,
      List.reverse_reverse, hnu2, hinv]
    rw [hsplit]
  · exact (compact_ranges_perm bs _ hfirst).2.1
  · exact (compact_ranges_perm bs _ hfirst).2.2
  · refine ⟨⟨p.2, last.num_processed⟩, List.getLast?_concat _, ?_⟩
    show p.2.drop (last.len - (bs.map Bucket.num_unprocessed).sum) =
      (bs.map Bucket.data_unprocessed).flatten
    have i1 : last.len - (bs.map Bucket.num_unprocessed).sum =
        last.data.length - (last.num_unprocessed +
          (bs.dropLast.reverse.map Bucket.num_unprocessed).sum) := by
      rw [hds]
      unfold Bucket.len
      omega
    rw [i1, hpdrop]
    have hwf' : last.num_processed ≤ last.data.length := hwf
    have i2 : last.data.drop
        (last.data.length - last.num_unprocessed) =
        last.data_unprocessed := by
      unfold Bucket.data_unprocessed Bucket.num_unprocessed Bucket.len
      congr 1
      omega
    rw [List.reverse_reverse, i2]
    conv_rhs => rw [← hsplit]
    simp

/-- Witness for `compact_ranges_roundtrip` at a concrete instance: buckets
`[1,2]` and `[3,4,5]`, each with one processed element, total stash 3 =
last bucket's length. -/
theorem compact_ranges_roundtrip_witness :
    ∃ bs', compact_ranges [(⟨[1,2],1⟩ : Bucket Nat), ⟨[3,4,5],1⟩] =
        some bs' ∧
      compact_ranges bs' = some [⟨[1,2],1⟩, ⟨[3,4,5],1⟩] ∧
      bs'.map Bucket.len =
        [(⟨[1,2],1⟩ : Bucket Nat), ⟨[3,4,5],1⟩].map Bucket.len ∧
      bs'.map Bucket.num_processed =
        [(⟨[1,2],1⟩ : Bucket Nat), ⟨[3,4,5],1⟩].map Bucket.num_processed ∧
      ∃ last2, bs'.getLast? = some last2 ∧
        last2.data.drop ((⟨[3,4,5],1⟩ : Bucket Nat).len -
            ([(⟨[1,2],1⟩ : Bucket Nat),
              ⟨[3,4,5],1⟩].map Bucket.num_unprocessed).sum) =
          ([(⟨[1,2],1⟩ : Bucket Nat),
            ⟨[3,4,5],1⟩].map Bucket.data_unprocessed).flatten :=
  compact_ranges_roundtrip [(⟨[1,2],1⟩ : Bucket Nat), ⟨[3,4,5],1⟩]
    ⟨[3,4,5],1⟩ (by decide) (by decide) (by decide)

/-! ## The reshape sweeps: totality, exact target lengths, and the
processed-prefix/stash-suffix invariant (C6) -/

/-- Marker-based statement of the processed/stash split: every element of
the processed prefix fails the marker `p`, every element of the stash
suffix satisfies it. -/
def Marked {a : Type} (p : a → Bool) (b : Bucket a) : Prop :=
  (∀ x ∈ b.data.take b.num_processed, p x = false) ∧
  (∀ x ∈ b.data.drop b.num_processed, p x = true)

theorem marked_parts {a : Type} (p : a → Bool) (P S : List a) (np : Nat)
    (hP : P.length = np) (hPf : ∀ x ∈ P, p x = false)
    (hSt : ∀ x ∈ S, p x = true) : Marked p ⟨P ++ S, np⟩ := by
  constructor
  · intro x hx
    dsimp only at hx
    rw [List.take_left' hP] at hx
    exact hPf x hx
  · intro x hx
    dsimp only at hx
    rw [List.drop_left' hP] at hx
    exact hSt x hx

theorem mem_take_of_take_le {a : Type} {x : a} {l : List a} {m n : Nat}
    (h : m ≤ n) (hx : x ∈ l.take m) : x ∈ l.take n := by
  rw [← Nat.min_eq_left h, ← List.take_take] at hx
  exact List.mem_of_mem_take hx

theorem mem_drop_of_drop_ge {a : Type} {x : a} {l : List a} {m n : Nat}
    (h : n ≤ m) (hx : x ∈ l.drop m) : x ∈ l.drop n := by
  have e : l.drop m = (l.drop n).drop (m - n) := by
    rw [List.drop_drop]
    congr 1
    omega
  rw [e] at hx
  exact List.mem_of_mem_drop hx

theorem mem_take_of_window {a : Type} {x : a} {l : List a} {s t n : Nat}
    (hn : s + t ≤ n) (hx : x ∈ (l.drop s).take t) : x ∈ l.take n := by
  have e : (l.drop s).take t = (l.take (s + t)).drop s := by
    rw [List.drop_take]
    congr 1
    omega
  rw [e] at hx
  exact mem_take_of_take_le hn (List.mem_of_mem_drop hx)

theorem mem_drop_of_window {a : Type} {x : a} {l : List a} {s t n : Nat}
    (hn : n ≤ s) (hx : x ∈ (l.drop s).take t) : x ∈ l.drop n :=
  mem_drop_of_drop_ge hn (List.mem_of_mem_take hx)

theorem shrink_to_right_marked {a : Type} (p : a → Bool)
    (left right l' r' : Bucket a) (num : Nat)
    (hwl : left.num_processed ≤ left.data.length)
    (hwr : right.num_processed ≤ right.data.length)
    (hml : Marked p left) (hmr : Marked p right)
    (h : shrink_to_right left right num = some (l', r')) :
    (l'.num_processed ≤ l'.data.length ∧ Marked p l') ∧
    (r'.num_processed ≤ r'.data.length ∧ Marked p r') := by
  unfold shrink_to_right at h
  split at h
  case isFalse => simp at h
  case isTrue hg =>
    simp only [Option.some.injEq, Prod.mk.injEq] at h
    obtain ⟨hl, hr⟩ := h
    subst hl
    subst hr
    have hg' : left.num_processed + num ≤ left.data.length := by
      unfold Bucket.num_unprocessed Bucket.len at hg
      omega
    have hlM : ∀ x ∈ left.data.drop (left.data.length - num), p x = true :=
      fun x hx => hml.2 x (mem_drop_of_drop_ge (by omega) hx)
    refine ⟨⟨?_, ?_, ?_⟩, ?_⟩
    · dsimp only
      rw [List.length_take]
      omega
    · intro x hx
      dsimp only at hx
      rw [List.take_take, Nat.min_eq_left (by omega)] at hx
      exact hml.1 x hx
    · intro x hx
      dsimp only at hx
      rw [List.drop_take] at hx
      exact hml.2 x (List.mem_of_mem_take hx)
    · by_cases hc : num ≤ right.num_processed
      · have htm : min right.num_processed num = num := Nat.min_eq_right hc
        rw [htm] at *
        have hm2 : (left.data.drop (left.data.length - num)).drop num =
            [] := by
          apply List.drop_eq_nil_of_le
          rw [List.length_drop]
          omega
        have hshape : (((right.data.drop
              (right.num_processed - num)).take num ++
              (left.data.drop (left.data.length - num)).drop num) ++
              (right.data.take (right.num_processed - num) ++
                (left.data.drop (left.data.length - num)).take num ++
                right.data.drop right.num_processed)) =
            ((right.data.drop (right.num_processed - num)).take num ++
              right.data.take (right.num_processed - num)) ++
              ((left.data.drop (left.data.length - num)).take num ++
                right.data.drop right.num_processed) := by
          rw [hm2]
          simp [List.append_assoc]
        rw [hshape]
        have hwf2 : right.num_processed ≤
            ((right.data.drop (right.num_processed - num)).take num ++
              right.data.take (right.num_processed - num)).length +
              ((left.data.drop (left.data.length - num)).take num ++
                right.data.drop right.num_processed).length := by
          simp only [List.length_append, List.length_take, List.length_drop]
          omega
        refine ⟨by dsimp only; rw [List.length_append]; exact hwf2, ?_⟩
        apply marked_parts
        · simp only [List.length_append, List.length_take, List.length_drop]
          omega
        · intro x hx
          rcases List.mem_append.1 hx with hx | hx
          · exact hmr.1 x (mem_take_of_window (by omega) hx)
          · exact hmr.1 x (mem_take_of_take_le (by omega) hx)
        · intro x hx
          rcases List.mem_append.1 hx with hx | hx
          · exact hlM x (List.mem_of_mem_take hx)
          · exact hmr.2 x hx
      · have htm : min right.num_processed num = right.num_processed :=
          Nat.min_eq_left (by omega)
        rw [htm] at *
        have hr1 : right.data.take
            (right.num_processed - right.num_processed) = [] := by
          rw [Nat.sub_self, List.take_zero]
        have hshape : (((right.data.drop
              (right.num_processed - right.num_processed)).take
                right.num_processed ++
              (left.data.drop (left.data.length - num)).drop
                right.num_processed) ++
              (right.data.take (right.num_processed - right.num_processed) ++
                (left.data.drop (left.data.length - num)).take
                  right.num_processed ++
                right.data.drop right.num_processed)) =
            ((right.data.drop (right.num_processed -
                right.num_processed)).take right.num_processed) ++
              ((left.data.drop (left.data.length - num)).drop
                right.num_processed ++
                ((left.data.drop (left.data.length - num)).take
                  right.num_processed ++
                right.data.drop right.num_processed)) := by
          rw [hr1]
          simp [List.append_assoc]
        rw [hshape]
        refine ⟨?_, ?_⟩
        · dsimp only
          simp only [List.length_append, List.length_take, List.length_drop]
          omega
        · apply marked_parts
          · simp only [List.length_take, List.length_drop, Nat.sub_self,
              List.drop_zero]
            omega
          · intro x hx
            rw [Nat.sub_self, List.drop_zero] at hx
            exact hmr.1 x hx
          · intro x hx
            rcases List.mem_append.1 hx with hx | hx
            · exact hlM x (List.mem_of_mem_drop hx)
            · rcases List.mem_append.1 hx with hx | hx
              · exact hlM x (List.mem_of_mem_take hx)
              · exact hmr.2 x hx

theorem grow_from_right_marked {a : Type} (p : a → Bool)
    (left right l' r' : Bucket a) (num : Nat)
    (hwl : left.num_processed ≤ left.data.length)
    (hwr : right.num_processed ≤ right.data.length)
    (hml : Marked p left) (hmr : Marked p right)
    (h : grow_from_right left right num = some (l', r')) :
    (l'.num_processed ≤ l'.data.length ∧ Marked p l') ∧
    (r'.num_processed ≤ r'.data.length ∧ Marked p r') := by
  unfold grow_from_right at h
  split at h
  case isFalse => simp at h
  case isTrue hg =>
    simp only [Option.some.injEq, Prod.mk.injEq] at h
    obtain ⟨hl, hr⟩ := h
    subst hl
    subst hr
    have hg' : right.num_processed + num ≤ right.data.length := by
      unfold Bucket.num_unprocessed Bucket.len at hg
      omega
    by_cases hc : num ≤ right.num_processed
    · have htm : min right.num_processed num = num := Nat.min_eq_right hc
      rw [htm] at *
      have hg2 : (right.data.take num).drop num = [] :=
        List.drop_eq_nil_of_le (by rw [List.length_take]; omega)
      have hd2 : ((right.data.drop num).drop
          (right.num_processed - num)).take num =
          (right.data.drop right.num_processed).take num := by
        rw [List.drop_drop]
        congr 2
        omega
      refine ⟨⟨?_, ?_, ?_⟩, ⟨?_, ?_, ?_⟩⟩
      · dsimp only
        simp only [List.length_append]
        omega
      · intro x hx
        dsimp only at hx
        rw [List.take_append_of_le_length hwl] at hx
        exact hml.1 x hx
      · intro x hx
        dsimp only at hx
        rw [List.drop_append_of_le_length hwl] at hx
        rcases List.mem_append.1 hx with hx | hx
        · exact hml.2 x hx
        · rcases List.mem_append.1 hx with hx | hx
          · rw [hd2] at hx
            exact hmr.2 x (List.mem_of_mem_take hx)
          · rw [hg2] at hx
            simp at hx
      · dsimp only
        simp only [List.length_append, List.length_take, List.length_drop]
        omega
      · intro x hx
        dsimp only at hx
        have hlen : ((right.data.drop num).take (right.num_processed - num) ++
            (right.data.take num).take num).length =
            right.num_processed := by
          simp only [List.length_append, List.length_take, List.length_drop]
          omega
        rw [List.take_append_of_le_length (le_of_eq hlen.symm),
          List.take_of_length_le (le_of_eq hlen)] at hx
        rcases List.mem_append.1 hx with hx | hx
        · exact hmr.1 x (mem_take_of_window (by omega) hx)
        · rw [List.take_take, Nat.min_self] at hx
          exact hmr.1 x (mem_take_of_take_le hc hx)
      · intro x hx
        dsimp only at hx
        have hlen : ((right.data.drop num).take (right.num_processed - num) ++
            (right.data.take num).take num).length =
            right.num_processed := by
          simp only [List.length_append, List.length_take, List.length_drop]
          omega
        rw [List.drop_append_of_le_length (le_of_eq hlen.symm),
          List.drop_eq_nil_of_le (le_of_eq hlen), List.nil_append] at hx
        rw [List.drop_drop] at hx
        exact hmr.2 x (mem_drop_of_drop_ge (by omega) hx)
    · have htm : min right.num_processed num = right.num_processed :=
        Nat.min_eq_left (by omega)
      rw [htm] at *
      have hd1 : (right.data.drop num).take
          (right.num_processed - right.num_processed) = [] := by
        rw [Nat.sub_self, List.take_zero]
      refine ⟨⟨?_, ?_, ?_⟩, ⟨?_, ?_, ?_⟩⟩
      · dsimp only
        simp only [List.length_append]
        omega
      · intro x hx
        dsimp only at hx
        rw [List.take_append_of_le_length hwl] at hx
        exact hml.1 x hx
      · intro x hx
        dsimp only at hx
        rw [List.drop_append_of_le_length hwl] at hx
        rcases List.mem_append.1 hx with hx | hx
        · exact hml.2 x hx
        · rcases List.mem_append.1 hx with hx | hx
          · rw [Nat.sub_self, List.drop_zero] at hx
            exact hmr.2 x (mem_drop_of_window (by omega) hx)
          · rw [List.drop_take] at hx
            exact hmr.2 x (List.mem_of_mem_take hx)
      · dsimp only
        simp only [List.length_append, List.length_take, List.length_drop]
        omega
      · intro x hx
        dsimp only at hx
        rw [hd1, List.nil_append] at hx
        have hlen : ((right.data.take num).take right.num_processed).length =
            right.num_processed := by
          simp only [List.length_take]
          omega
        rw [List.take_append_of_le_length (le_of_eq hlen.symm),
          List.take_of_length_le (le_of_eq hlen)] at hx
        rw [List.take_take, Nat.min_eq_left (by omega)] at hx
        exact hmr.1 x hx
      · intro x hx
        dsimp only at hx
        rw [hd1, List.nil_append] at hx
        have hlen : ((right.data.take num).take right.num_processed).length =
            right.num_processed := by
          simp only [List.length_take]
          omega
        rw [List.drop_append_of_le_length (le_of_eq hlen.symm),
          List.drop_eq_nil_of_le (le_of_eq hlen), List.nil_append] at hx
        rw [List.drop_drop] at hx
        exact hmr.2 x (mem_drop_of_drop_ge (by omega) hx)

theorem shrink_sweep_to_right_spec {a : Type} (p : a → Bool) :
    ∀ (ts : List Nat) (bs : List (Bucket a)) (g : Int),
      0 ≤ g →
      ts.length < bs.length →
      (∀ pr ∈ List.zip ts (bs.map Bucket.num_processed), pr.2 ≤ pr.1) →
      (∀ b ∈ bs, b.num_processed ≤ b.data.length) →
      (∀ b ∈ bs, Marked p b) →
      ∃ bs2, shrink_sweep_to_right g bs ts = some bs2 ∧
        bs2.length = bs.length ∧
        bs2.map Bucket.num_processed = bs.map Bucket.num_processed ∧
        (bs2.map Bucket.len).sum = (bs.map Bucket.len).sum ∧
        (∀ b ∈ bs2, b.num_processed ≤ b.data.length) ∧
        (∀ b ∈ bs2, Marked p b) ∧
        (∀ k, k ≤ ts.length →
          ((bs2.take k).map Bucket.len).sum ≤ g.toNat + (ts.take k).sum) := by
  intro ts
  induction ts with
  | nil =>
    intro bs g hg hlen hzip hwf hmk
    refine ⟨bs, ?_, rfl, rfl, rfl, hwf, hmk, by simp⟩
    cases bs <;> rfl
  | cons t ts' ih =>
    intro bs g hg hlen hzip hwf hmk
    cases bs with
    | nil => simp at hlen
    | cons b rest =>
      have hnpb : b.num_processed ≤ t := by
        have := hzip (t, b.num_processed)
        simp only [List.map_cons, List.zip_cons_cons, List.mem_cons] at this
        exact this (Or.inl trivial)
      by_cases hcond : t + g.toNat < b.len
      · cases rest with
        | nil => simp at hlen
        | cons next rest' =>
          have hguard : b.len - (t + g.toNat) ≤ b.num_unprocessed := by
            unfold Bucket.num_unprocessed
            omega
          cases hsh : shrink_to_right b next (b.len - (t + g.toNat)) with
          | none =>
            exfalso
            unfold shrink_to_right at hsh
            rw [if_pos hguard] at hsh
            exact absurd hsh (by simp)
          | some pr =>
            obtain ⟨l2, r2⟩ := pr
            have hwfb : b.num_processed ≤ b.data.length :=
              hwf b (by simp)
            have hwfnext : next.num_processed ≤ next.data.length :=
              hwf next (by simp)
            obtain ⟨-, hlenl, hlenr, hnpl, hnpr⟩ :=
              shrink_to_right_perm b next l2 r2 _ hwfnext hsh
            obtain ⟨⟨hwl2, hml2⟩, hwr2, hmr2⟩ :=
              shrink_to_right_marked p b next l2 r2 _ hwfb hwfnext
                (hmk b (by simp)) (hmk next (by simp)) hsh
            have hl2len : l2.len = t + g.toNat := by
              unfold Bucket.len at hcond hlenl ⊢
              omega
            obtain ⟨bs2', hrun, hlen2, hnp2, hsum2, hwf2, hmk2, hpre2⟩ :=
              ih (r2 :: rest') (g + (t : Int) - (l2.len : Int))
                (by rw [hl2len]; omega)
                (by simp only [List.length_cons] at hlen ⊢; omega)
                (by
                  intro pr hpr
                  apply hzip
                  simp only [List.map_cons, List.zip_cons_cons,
                    List.mem_cons]
                  refine Or.inr ?_
                  simp only [List.map_cons, hnpr] at hpr
                  exact hpr)
                (by
                  intro c hc
                  rcases List.mem_cons.1 hc with h1 | h1
                  · subst h1; exact hwr2
                  · exact hwf c (by simp [h1]))
                (by
                  intro c hc
                  rcases List.mem_cons.1 hc with h1 | h1
                  · subst h1; exact hmr2
                  · exact hmk c (by simp [h1]))
            refine ⟨l2 :: bs2', ?_, ?_, ?_, ?_, ?_, ?_, ?_⟩
            · simp only [shrink_sweep_to_right, if_pos hcond, hsh, hrun]
            · simp only [List.length_cons, hlen2]
            · simp only [List.map_cons, hnp2, hnpl, hnpr]
            · simp only [List.map_cons, List.sum_cons, hsum2]
              unfold Bucket.len at hlenl hlenr ⊢
              omega
            · intro c hc
              rcases List.mem_cons.1 hc with h1 | h1
              · subst h1; exact hwl2
              · exact hwf2 c h1
            · intro c hc
              rcases List.mem_cons.1 hc with h1 | h1
              · subst h1; exact hml2
              · exact hmk2 c h1
            · intro k hk
              cases k with
              | zero => simp
              | succ k' =>
                simp only [List.take_succ_cons, List.map_cons,
                  List.sum_cons]
                have hb := hpre2 k' (by
                  simp only [List.length_cons] at hk
                  omega)
                have hgz : (g + (t : Int) - (l2.len : Int)).toNat = 0 := by
                  rw [hl2len]
                  omega
                rw [hgz] at hb
                rw [hl2len]
                omega
      · obtain ⟨bs2', hrun, hlen2, hnp2, hsum2, hwf2, hmk2, hpre2⟩ :=
          ih rest (g + (t : Int) - (b.len : Int))
            (by omega)
            (by simp only [List.length_cons] at hlen; omega)
            (by
              intro pr hpr
              apply hzip
              simp only [List.map_cons, List.zip_cons_cons, List.mem_cons]
              exact Or.inr hpr)
            (fun c hc => hwf c (by simp [hc]))
            (fun c hc => hmk c (by simp [hc]))
        refine ⟨b :: bs2', ?_, ?_, ?_, ?_, ?_, ?_, ?_⟩
        · simp only [shrink_sweep_to_right, if_neg hcond, hrun]
        · simp only [List.length_cons, hlen2]
        · simp only [List.map_cons, hnp2]
        · simp only [List.map_cons, List.sum_cons, hsum2]
        · intro c hc
          rcases List.mem_cons.1 hc with h1 | h1
          · exact hwf c (by simp [h1])
          · exact hwf2 c h1
        · intro c hc
          rcases List.mem_cons.1 hc with h1 | h1
          · exact hmk c (by simp [h1])
          · exact hmk2 c h1
        · intro k hk
          cases k with
          | zero => simp
          | succ k' =>
            simp only [List.take_succ_cons, List.map_cons, List.sum_cons]
            have hb := hpre2 k' (by
              simp only [List.length_cons] at hk
              omega)
            have hgn : (g + (t : Int) - (b.len : Int)).toNat =
                g.toNat + t - b.len := by
              omega
            rw [hgn] at hb
            omega

theorem sum_take_le_sum (l : List Nat) (k : Nat) :
    (l.take k).sum ≤ l.sum := by
  conv_rhs => rw [← List.take_append_drop k l]
  rw [List.sum_append]
  omega

theorem shrink_sweep_to_left_rev_spec {a : Type} (p : a → Bool) :
    ∀ (rts : List Nat) (rbs : List (Bucket a)),
      rbs.length = rts.length + 1 →
      (∀ k, k ≤ rts.length →
        (rts.take k).sum ≤ ((rbs.take k).map Bucket.len).sum) →
      (∀ pr ∈ List.zip rts (rbs.map Bucket.num_processed), pr.2 ≤ pr.1) →
      (∀ b ∈ rbs, b.num_processed ≤ b.data.length) →
      (∀ b ∈ rbs, Marked p b) →
      ∃ rbs2, shrink_sweep_to_left_rev rbs rts = some rbs2 ∧
        rbs2.map Bucket.len =
          rts ++ [(rbs.map Bucket.len).sum - rts.sum] ∧
        rbs2.map Bucket.num_processed = rbs.map Bucket.num_processed ∧
        (∀ b ∈ rbs2, b.num_processed ≤ b.data.length) ∧
        (∀ b ∈ rbs2, Marked p b) := by
  intro rts
  induction rts with
  | nil =>
    intro rbs hlen hpre hzip hwf hmk
    cases rbs with
    | nil => simp at hlen
    | cons b rest =>
      cases rest with
      | cons c r2 => simp at hlen
      | nil =>
        refine ⟨[b], rfl, ?_, rfl, hwf, hmk⟩
        simp
  | cons t ts' ih =>
    intro rbs hlen hpre hzip hwf hmk
    cases rbs with
    | nil => simp at hlen
    | cons b rest =>
      have hbt : t ≤ b.len := by
        have h1 := hpre 1 (by simp)
        simp only [List.take_succ_cons, List.take_zero, List.map_cons,
          List.map_nil, List.sum_cons, List.sum_nil] at h1
        omega
      have hnpb : b.num_processed ≤ t := by
        have := hzip (t, b.num_processed)
        simp only [List.map_cons, List.zip_cons_cons, List.mem_cons] at this
        exact this (Or.inl trivial)
      by_cases hcond : b.len ≤ t
      · have hbeq : b.len = t := by omega
        obtain ⟨rbs2', hrun, hmap2, hnp2, hwf2, hmk2⟩ :=
          ih rest
            (by simp only [List.length_cons] at hlen; omega)
            (by
              intro k hk
              have h1 := hpre (k + 1) (by simp; omega)
              simp only [List.take_succ_cons, List.map_cons,
                List.sum_cons] at h1
              omega)
            (by
              intro pr hpr
              apply hzip
              simp only [List.map_cons, List.zip_cons_cons, List.mem_cons]
              exact Or.inr hpr)
            (fun c hc => hwf c (by simp [hc]))
            (fun c hc => hmk c (by simp [hc]))
        refine ⟨b :: rbs2', ?_, ?_, ?_, ?_, ?_⟩
        · simp only [shrink_sweep_to_left_rev, if_pos hcond, hrun]
        · simp only [List.map_cons, hmap2, List.cons_append, List.sum_cons]
          rw [hbeq, Nat.add_sub_add_left]
        · simp only [List.map_cons, hnp2]
        · intro c hc
          rcases List.mem_cons.1 hc with h1 | h1
          · exact hwf c (by simp [h1])
          · exact hwf2 c h1
        · intro c hc
          rcases List.mem_cons.1 hc with h1 | h1
          · exact hmk c (by simp [h1])
          · exact hmk2 c h1
      · cases rest with
        | nil => simp at hlen
        | cons prev rest2 =>
          have hguard : b.len - t ≤ b.num_unprocessed := by
            unfold Bucket.num_unprocessed
            omega
          cases hgr : grow_from_right prev b (b.len - t) with
          | none =>
            exfalso
            unfold grow_from_right at hgr
            rw [if_pos hguard] at hgr
            exact absurd hgr (by simp)
          | some pr =>
            obtain ⟨l2, r2⟩ := pr
            have hwfb : b.num_processed ≤ b.data.length := hwf b (by simp)
            have hwfprev : prev.num_processed ≤ prev.data.length :=
              hwf prev (by simp)
            obtain ⟨-, hlenl, hlenr, hnpl, hnpr⟩ :=
              grow_from_right_perm prev b l2 r2 _ hwfb hgr
            obtain ⟨⟨hwl2, hml2⟩, hwr2, hmr2⟩ :=
              grow_from_right_marked p prev b l2 r2 _ hwfprev hwfb
                (hmk prev (by simp)) (hmk b (by simp)) hgr
            have hr2len : r2.len = t := by
              unfold Bucket.len at hcond hlenr ⊢
              omega
            have hl2len : l2.len = prev.len + (b.len - t) := by
              unfold Bucket.len at hlenl ⊢
              omega
            obtain ⟨rbs2', hrun, hmap2, hnp2, hwf2, hmk2⟩ :=
              ih (l2 :: rest2)
                (by simp only [List.length_cons] at hlen ⊢; omega)
                (by
                  intro k hk
                  cases k with
                  | zero => simp
                  | succ k' =>
                    have h1 := hpre (k' + 2) (by simp; omega)
                    simp only [List.take_succ_cons, List.map_cons,
                      List.sum_cons] at h1 ⊢
                    rw [hl2len]
                    unfold Bucket.len at hcond h1 ⊢
                    omega)
                (by
                  intro pr hpr
                  apply hzip
                  simp only [List.map_cons, List.zip_cons_cons,
                    List.mem_cons]
                  refine Or.inr ?_
                  simp only [List.map_cons, hnpl] at hpr
                  exact hpr)
                (by
                  intro c hc
                  rcases List.mem_cons.1 hc with h1 | h1
                  · subst h1; exact hwl2
                  · exact hwf c (by simp [h1]))
                (by
                  intro c hc
                  rcases List.mem_cons.1 hc with h1 | h1
                  · subst h1; exact hml2
                  · exact hmk c (by simp [h1]))
            refine ⟨r2 :: rbs2', ?_, ?_, ?_, ?_, ?_⟩
            · simp only [shrink_sweep_to_left_rev, if_neg hcond, hgr, hrun]
            · simp only [List.map_cons, hmap2, List.cons_append,
                List.sum_cons, hr2len]
              have hv : l2.len + (rest2.map Bucket.len).sum - ts'.sum =
                  b.len + (prev.len + (rest2.map Bucket.len).sum) -
                    (t + ts'.sum) := by
                rw [hl2len]
                unfold Bucket.len at hcond ⊢
                omega
              rw [hv]
            · simp only [List.map_cons, hnp2, hnpl, hnpr]
            · intro c hc
              rcases List.mem_cons.1 hc with h1 | h1
              · subst h1; exact hwr2
              · exact hwf2 c h1
            · intro c hc
              rcases List.mem_cons.1 hc with h1 | h1
              · subst h1; exact hmr2
              · exact hmk2 c h1

theorem mem_zip_dropLast {al bt : Type} {A : List al} {B : List bt}
    {pr : al × bt} (h : pr ∈ List.zip A.dropLast B) :
    pr ∈ List.zip A B := by
  obtain ⟨i, hi⟩ := List.mem_iff_getElem?.1 h
  rw [List.getElem?_zip_eq_some] at hi
  obtain ⟨h1, h2⟩ := hi
  rw [List.getElem?_dropLast] at h1
  split at h1
  case isFalse => simp at h1
  case isTrue =>
    exact List.mem_iff_getElem?.2 ⟨i, List.getElem?_zip_eq_some.2 ⟨h1, h2⟩⟩

theorem mem_zip_of_rev_drop1 {al bt : Type} {A : List al} {B : List bt}
    {pr : al × bt} (hlen : B.length = A.length)
    (h : pr ∈ List.zip (A.drop 1).reverse B.reverse) :
    pr ∈ List.zip A B := by
  obtain ⟨i, hi⟩ := List.mem_iff_getElem?.1 h
  rw [List.getElem?_zip_eq_some] at hi
  obtain ⟨h1, h2⟩ := hi
  have hib : i < (A.drop 1).length := by
    by_contra hge
    rw [List.getElem?_eq_none (by rw [List.length_reverse]; omega)] at h1
    simp at h1
  rw [List.length_drop] at hib
  rw [List.getElem?_reverse (by rw [List.length_drop]; omega),
    List.getElem?_drop] at h1
  rw [List.getElem?_reverse (by omega)] at h2
  have e : 1 + ((A.drop 1).length - 1 - i) = B.length - 1 - i := by
    rw [List.length_drop]
    omega
  rw [e] at h1
  exact List.mem_iff_getElem?.2
    ⟨B.length - 1 - i, List.getElem?_zip_eq_some.2 ⟨h1, h2⟩⟩

theorem sum_take_reverse (l : List Nat) (k : Nat) (hk : k ≤ l.length) :
    (l.reverse.take k).sum = l.sum - (l.take (l.length - k)).sum := by
  have hsplit : l.reverse = (l.drop (l.length - k)).reverse ++
      (l.take (l.length - k)).reverse := by
    rw [← List.reverse_append, List.take_append_drop]
  rw [hsplit, List.take_left'
    (by rw [List.length_reverse, List.length_drop]; omega)]
  rw [List.sum_reverse]
  have htd : (l.take (l.length - k)).sum + (l.drop (l.length - k)).sum =
      l.sum := by
    rw [← List.sum_append, List.take_append_drop]
  omega

theorem sum_take_rev_drop1 (ts : List Nat) (k : Nat)
    (hk : k + 1 ≤ ts.length) :
    (((ts.drop 1).reverse).take k).sum =
      ts.sum - (ts.take (ts.length - k)).sum := by
  rw [sum_take_reverse (ts.drop 1) k (by rw [List.length_drop]; omega)]
  have e1 : (ts.drop 1).take ((ts.drop 1).length - k) =
      (ts.take (ts.length - k)).drop 1 := by
    rw [List.drop_take]
    congr 1
    rw [List.length_drop]
    omega
  rw [e1]
  have e2 : (ts.take 1).sum + ((ts.take (ts.length - k)).drop 1).sum =
      (ts.take (ts.length - k)).sum := by
    have : (ts.take (ts.length - k)).take 1 = ts.take 1 := by
      rw [List.take_take]
      congr 1
      omega
    rw [← this, ← List.sum_append, List.take_append_drop]
  have e3 : (ts.take 1).sum + (ts.drop 1).sum = ts.sum := by
    rw [← List.sum_append, List.take_append_drop]
  have e4 := sum_take_le_sum ts (ts.length - k)
  have e5 : (ts.take 1).sum ≤ (ts.take (ts.length - k)).sum := by
    rw [← e2]
    omega
  omega

/-- C6: for every bucket set and every target vector of the same length
that sums to the buckets' total length and gives each bucket at least its
`num_processed`, the two reshape sweeps of `move_buckets_to_fit_target_len`
succeed and leave every bucket with exactly its target length and its
original `num_processed`; and for any marker `p` separating processed
elements (`p = false`) from stash elements (`p = true`), the separation
holds in every bucket afterwards — it is maintained by each primitive
(`shrink_to_right_marked`, `grow_from_right_marked`), hence throughout. -/
theorem move_buckets_spec {a : Type} (p : a → Bool) (bs : List (Bucket a))
    (ts : List Nat)
    (hne : bs ≠ [])
    (hlen : ts.length = bs.length)
    (hsum : ts.sum = (bs.map Bucket.len).sum)
    (htgt : List.Forall₂ (fun t (b : Bucket a) => b.num_processed ≤ t) ts bs)
    (hwf : ∀ b ∈ bs, b.num_processed ≤ b.data.length)
    (hmk : ∀ b ∈ bs, Marked p b) :
    ∃ bs2, move_buckets_to_fit_target_len bs ts = some bs2 ∧
      bs2.map Bucket.len = ts ∧
      bs2.map Bucket.num_processed = bs.map Bucket.num_processed ∧
      (∀ b ∈ bs2, b.num_processed ≤ b.data.length) ∧
      (∀ b ∈ bs2, Marked p b) := by
  have hN : 1 ≤ ts.length := by
    cases bs with
    | nil => exact absurd rfl hne
    | cons c r => simp only [List.length_cons] at hlen; omega
  have hF : List.Forall₂ (fun t x => x ≤ t) ts
      (bs.map Bucket.num_processed) := List.forall₂_map_right_iff.2 htgt
  have hzip0 : ∀ pr ∈ List.zip ts (bs.map Bucket.num_processed),
      pr.2 ≤ pr.1 := by
    intro pr hpr
    obtain ⟨x, y⟩ := pr
    exact List.forall₂_zip hF hpr
  obtain ⟨bs1, hrun1, hlen1, hnp1, hsum1, hwf1, hmk1, hpre1⟩ :=
    shrink_sweep_to_right_spec p ts.dropLast bs 0 (le_refl 0)
      (by rw [List.length_dropLast]; omega)
      (fun pr hpr => hzip0 pr (mem_zip_dropLast hpr))
      hwf hmk
  have hpre1' : ∀ k, k ≤ ts.length - 1 →
      ((bs1.take k).map Bucket.len).sum ≤ (ts.take k).sum := by
    intro k hk
    have h0 := hpre1 k (by rw [List.length_dropLast]; omega)
    rw [List.dropLast_eq_take, List.take_take,
      Nat.min_eq_left (by omega)] at h0
    simpa using h0
  have hL1len : (bs1.map Bucket.len).length = ts.length := by
    rw [List.length_map, hlen1, hlen]
  have hL1sum : (bs1.map Bucket.len).sum = ts.sum := by
    rw [hsum1, hsum]
  obtain ⟨rbs2, hrun2, hmap2, hnp2, hwf2, hmk2⟩ :=
    shrink_sweep_to_left_rev_spec p (ts.drop 1).reverse bs1.reverse
      (by
        rw [List.length_reverse, List.length_reverse, List.length_drop,
          hlen1, ← hlen]
        omega)
      (by
        intro k hk
        rcases Nat.eq_zero_or_pos k with h0 | hpos
        · subst h0; simp
        · rw [List.length_reverse, List.length_drop] at hk
          rw [sum_take_rev_drop1 ts k (by omega)]
          have hmapeq : ((bs1.reverse.take k).map Bucket.len).sum =
              (((bs1.map Bucket.len).reverse).take k).sum := by
            rw [List.map_take, List.map_reverse]
          rw [hmapeq, sum_take_reverse _ k (by rw [hL1len]; omega)]
          have h1 := hpre1' (ts.length - k) (by omega)
          rw [List.map_take] at h1
          have e2 := sum_take_le_sum (bs1.map Bucket.len)
            (ts.length - k)
          have e3 := sum_take_le_sum ts (ts.length - k)
          rw [hL1len, hL1sum]
          omega)
      (by
        intro pr hpr
        rw [List.map_reverse, hnp1] at hpr
        exact hzip0 pr (mem_zip_of_rev_drop1
          (by rw [List.length_map, ← hlen]) hpr))
      (fun c hc => hwf1 c (List.mem_reverse.1 hc))
      (fun c hc => hmk1 c (List.mem_reverse.1 hc))
  refine ⟨rbs2.reverse, ?_, ?_, ?_, ?_, ?_⟩
  · simp only [move_buckets_to_fit_target_len, hrun1,
      shrink_sweep_to_left, hrun2]
  · rw [List.map_reverse, hmap2, List.reverse_append]
    rw [List.reverse_reverse]
    have hv : ((bs1.reverse.map Bucket.len).sum -
        ((ts.drop 1).reverse).sum) = (ts.take 1).sum := by
      rw [List.map_reverse, List.sum_reverse, List.sum_reverse, hL1sum]
      have e3 : (ts.take 1).sum + (ts.drop 1).sum = ts.sum := by
        rw [← List.sum_append, List.take_append_drop]
      omega
    rw [hv]
    cases ts with
    | nil => simp at hN
    | cons t0 tr => simp
  · rw [List.map_reverse, hnp2, List.map_reverse, List.reverse_reverse,
      hnp1]
  · exact fun c hc => hwf2 c (List.mem_reverse.1 hc)
  · exact fun c hc => hmk2 c (List.mem_reverse.1 hc)

/-- Witness for `move_buckets_spec`: buckets `[1,10,11]` (1 processed) and
`[2,3,12]` (2 processed), marker `10 ≤ x`, targets `[2,4]`; the first
sweep shrinks bucket 0 and the second leaves the exact target lengths. -/
theorem move_buckets_spec_witness :
    ∃ bs2, move_buckets_to_fit_target_len
        [(⟨[1,10,11],1⟩ : Bucket Nat), ⟨[2,3,12],2⟩] [2,4] = some bs2 ∧
      bs2.map Bucket.len = [2,4] ∧
      bs2.map Bucket.num_processed =
        [(⟨[1,10,11],1⟩ : Bucket Nat), ⟨[2,3,12],2⟩].map
          Bucket.num_processed ∧
      (∀ b ∈ bs2, b.num_processed ≤ b.data.length) ∧
      (∀ b ∈ bs2, Marked (fun x => decide (10 ≤ x)) b) :=
  move_buckets_spec (fun x => decide (10 ≤ x))
    [(⟨[1,10,11],1⟩ : Bucket Nat), ⟨[2,3,12],2⟩] [2,4]
    (by decide) (by decide) (by decide)
    (by
      refine List.Forall₂.cons (by decide) ?_
      exact List.Forall₂.cons (by decide) List.Forall₂.nil)
    (by decide)
    (by
      intro b hb
      simp only [List.mem_cons, List.not_mem_nil, or_false] at hb
      rcases hb with h1 | h1
      · subst h1
        exact ⟨by decide, by decide⟩
      · subst h1
        exact ⟨by decide, by decide⟩)
